import Mathlib

/-!
Verification development for the fogfish/skiplist repository.

The skip-list engine (skipset.go) keeps, for every level i < L, a singly
linked chain of nodes starting at the head sentinel finger of that level.
All public operations observe and mutate the structure only through these
head-reachable per-level chains (the skip walk enters a node at level i
only by following level-i fingers from the head).  The model therefore
represents a Set as the list of per-level key chains, plus the stored
length, the allocator flag, and a ghost log of Free calls.  Node heights
enter through the rank parameter of Add (the outcome of the random level
oracle, modelled separately as levelUp).  Fingers of nodes that have been
severed from the head chains (possible after Split) are unobservable by
the public operations and are not represented.

The level view of the map (part_005: Map / MapL) additionally needs node
heights, because MapL.Cut reads the finger array of a client supplied
node; MapS keeps the level-0 chain as key-height pairs and the higher
chains explicitly, so that states in which the higher chains disagree
with the heights are representable.

GF2 (the recursive field) is modelled over the Set model with the arc
dictionary as a function; a panic is modelled as the Option value none.
-/

namespace Skiplist

/-- Finger depth of every head sentinel, const L = 22 in types.go. -/
def L : Nat := 22

section Chains

variable {K : Type} [LinearOrder K]

/-- Splice a key into a single level chain: walk the chain while the next
key is strictly smaller, then link the new key in front of the rest.
This is the per-level effect of the finger rebinding in Set.Add. -/
def insertChain (k : K) : List K → List K
  | [] => [k]
  | x :: xs => if x < k then x :: insertChain k xs else k :: x :: xs

/-- Splice a key out of a single level chain: walk the chain while the next
key is strictly smaller; if the walk stops at the key, bypass it, otherwise
leave the chain unchanged.  This is the per-level effect of the splice in
Set.Cut (the predecessor finger is redirected only when it points at the
node being removed). -/
def cutChain (k : K) : List K → List K
  | [] => []
  | x :: xs => if x < k then x :: cutChain k xs else if x = k then xs else x :: xs

/-- Candidate returned by the skip walk: the first key of the chain for
which the advance guard (next key strictly below the search key) fails. -/
def findGE (k : K) (c : List K) : Option K := c.find? (fun x => !decide (x < k))

end Chains

/-- Random level oracle (Set.CreateElement / Map.createElement): starting
from level 0, increase the level while it is below the ceiling and the
draw p is below the probability table entry of the level. -/
def levelUp (p : ℚ) : List ℚ → Nat → Nat
  | _, 0 => 0
  | [], _ + 1 => 0
  | q :: qs, m + 1 => if p < q then levelUp p qs m + 1 else 0

/-- Model of skiplist.Set: the per-level chains reachable from the head
sentinel fingers, the stored length, whether an allocator is configured,
and a ghost log of the keys passed to the allocator Free hook. -/
structure SetS (K : Type) where
  chains : List (List K)
  length : Int
  hasMalloc : Bool
  freed : List K

section SetOps

variable {K : Type} [LinearOrder K]

/-- Level-0 chain: the keys reachable from head.Fingers[0]. -/
def chain0 (s : SetS K) : List K := s.chains.getD 0 []

/-- Rebind the fingers of the first h levels to a new node with key k
(the loop over level < rank in Set.Add). -/
def insertLevels (k : K) : Nat → List (List K) → List (List K)
  | _, [] => []
  | 0, cs => cs
  | h + 1, c :: cs => insertChain k c :: insertLevels k h cs

/-- Model of Set.Add.  The rank h of the new element is the result of the
level oracle (CreateElement), passed explicitly; Set.Add always calls it
with ceiling L, which yields a rank in [1, L] (levelUp_le, levelUp_pos). -/
def setAdd (h : Nat) (k : K) (s : SetS K) : Bool × SetS K :=
  if findGE k (chain0 s) = some k then (false, s)
  else (true, { s with chains := insertLevels k h s.chains, length := s.length + 1 })

/-- Model of Set.Has. -/
def setHas (k : K) (s : SetS K) : Bool := findGE k (chain0 s) = some k

/-- Model of Set.Cut: returns the removed flag, the removed node (by its
key) and the new state.  On a hit every level whose predecessor finger
points at the node is spliced; the length is decremented and the key is
passed to the Free hook when an allocator is configured. -/
def setCut (k : K) (s : SetS K) : Bool × Option K × SetS K :=
  match findGE k (chain0 s) with
  | none => (false, none, s)
  | some x =>
    if x = k then
      (true, some k,
        { s with chains := s.chains.map (cutChain k),
                 length := s.length - 1,
                 freed := if s.hasMalloc then s.freed ++ [k] else s.freed })
    else (false, none, s)

/-- Model of Set.Successor: the candidate of the skip walk at level 0. -/
def setSuccessor (k : K) (s : SetS K) : Option K := findGE k (chain0 s)

/-- Model of Set.Values: the level-0 chain. -/
def setValues (s : SetS K) : List K := chain0 s

/-- Model of Set.Split: every level of the source is severed after its
rightmost key below k; the tail container receives the level-0 suffix on
its level-0 head finger, all higher head fingers of the tail start empty,
and the tail length is counted by walking the moved level-0 chain. -/
def setSplit (k : K) (s : SetS K) : SetS K × SetS K :=
  let tail0 := (chain0 s).dropWhile (fun x => decide (x < k))
  let tlen : Int := tail0.length
  ( { s with chains := s.chains.map (fun c => c.takeWhile (fun x => decide (x < k))),
             length := s.length - tlen },
    { chains := tail0 :: List.replicate (L - 1) ([] : List K),
      length := tlen, hasMalloc := s.hasMalloc, freed := [] } )

/-- Model of NewSet: a head sentinel with L empty fingers. -/
def emptySet (b : Bool) : SetS K :=
  { chains := List.replicate L ([] : List K), length := 0, hasMalloc := b, freed := [] }

/-- Well-formedness of a Set state: L head fingers, every level chain
strictly sorted, every higher-level chain contained in the level-0 chain,
and the stored length equal to the level-0 node count. -/
def SetWF (s : SetS K) : Prop :=
  s.chains.length = L ∧
  (∀ c ∈ s.chains, List.Sorted (· < ·) c) ∧
  (∀ c ∈ s.chains.tail, ∀ x ∈ c, x ∈ chain0 s) ∧
  s.length = ((chain0 s).length : Int)

/-- States reachable from a new Set by the public mutating operations;
Has, Values and Successor take no step because they return without
touching the structure (setHas, setValues, setSuccessor are functions of
the state only).  The rank argument of Add ranges over [1, L], the image
of the level oracle at ceiling L. -/
inductive SetReach : SetS K → Prop where
  | new (b : Bool) : SetReach (emptySet b)
  | add (s : SetS K) (h : Nat) (k : K) (h1 : 1 ≤ h) (h2 : h ≤ L) :
      SetReach s → SetReach (setAdd h k s).2
  | cut (s : SetS K) (k : K) : SetReach s → SetReach (setCut k s).2.2
  | splitL (s : SetS K) (k : K) : SetReach s → SetReach (setSplit k s).1
  | splitR (s : SetS K) (k : K) : SetReach s → SetReach (setSplit k s).2

end SetOps

section MapLOps

variable {K : Type} [LinearOrder K]

/-- Model of the part_005 Map viewed through MapL: the level-0 chain as
key-height pairs (the height is the length of the finger array drawn at
insertion) and the chains of levels 1 .. L-1 kept explicitly, so that the
model can represent states in which a higher chain disagrees with the
stored heights.  Values are omitted: they are carried unchanged alongside
the keys and play no part in the structural invariants. -/
structure MapS (K : Type) where
  nodes : List (K × Nat)
  hichains : List (List K)
  length : Int

/-- Keys on the level-0 chain, in order. -/
def mkeys (s : MapS K) : List K := s.nodes.map Prod.fst

/-- Chain of a given level: level 0 is the node list, level i >= 1 is the
i-th higher chain. -/
def chainL (s : MapS K) (i : Nat) : List K :=
  if i = 0 then mkeys s else s.hichains.getD (i - 1) []

/-- Height (finger count) of the live node with the given key, 0 if absent. -/
def heightOf (k : K) (ns : List (K × Nat)) : Nat :=
  ((ns.find? (fun p => decide (p.1 = k))).map Prod.snd).getD 0

/-- Sorted splice of a key-height pair into the level-0 node chain. -/
def insertNode (k : K) (h : Nat) : List (K × Nat) → List (K × Nat)
  | [] => [(k, h)]
  | p :: ps => if p.1 < k then p :: insertNode k h ps else (k, h) :: p :: ps

/-- Model of MapL.Put: like Add, but the level oracle is called with the
given ceiling, so the rank h of a fresh node is at most that ceiling.  A
rank-0 node is created unlinked (the rebind loop is empty) yet the length
is still incremented, exactly as in the source. -/
def mlPut (h : Nat) (k : K) (s : MapS K) : Bool × MapS K :=
  if findGE k (mkeys s) = some k then (false, s)
  else (true, { nodes := if h = 0 then s.nodes else insertNode k h s.nodes,
                hichains := insertLevels k (h - 1) s.hichains,
                length := s.length + 1 })

/-- First chain entry strictly beyond k: the finger of the node k at a
level on whose chain k lies. -/
def nextAfter (k : K) (c : List K) : Option K := (c.dropWhile (fun x => !decide (k < x))).head?

/-- Per-level effect of the finger redirection in MapL.Cut: the cutting
node keeps its prefix up to and including lo, its finger jumps to the
first key not below the excision bound, and everything strictly between
is unlinked.  A lo of none stands for the head sentinel, a to of none for
an excision that runs to the end of the list. -/
def cutSeg (lo : Option K) (tok : Option K) (c : List K) : List K :=
  (match lo with
   | some a => c.takeWhile (fun x => decide (x ≤ a))
   | none => []) ++
  (match tok with
   | some t => c.dropWhile (fun x => decide (x < t))
   | none => [])

/-- Keys of the excised segment: strictly after lo (none = head) and
strictly before to (none = end of list). -/
def segBetween (lo : Option K) (tok : Option K) (c : List K) : List K :=
  (match lo with
   | some a => c.dropWhile (fun x => decide (x ≤ a))
   | none => c).takeWhile
    (fun x => match tok with
     | some t => decide (x < t)
     | none => true)

/-- Level-0 effect of MapL.Cut on the node chain, heights included. -/
def nodesCutSeg (lo tok : Option K) (ns : List (K × Nat)) : List (K × Nat) :=
  (match lo with
   | some a => ns.takeWhile (fun p => decide (p.1 ≤ a))
   | none => []) ++
  (match tok with
   | some t => ns.dropWhile (fun p => decide (p.1 < t))
   | none => [])

/-- Apply a per-level function to the chain list, passing the level index
(the first list element is the chain of level j + 1 when called with j). -/
def mapLevel {α : Type} (f : Nat → α → α) : Nat → List α → List α
  | _, [] => []
  | j, c :: cs => f j c :: mapLevel f (j + 1) cs

/-- Finger count of the node MapL.Cut cuts from: the head sentinel (L
slots) when nk is the first node, otherwise the height of the node nk. -/
def mlFromH (nk : K) (s : MapS K) : Nat :=
  if (mkeys s).head? = some nk then L else heightOf nk s.nodes

/-- Finger of the cutting node at the cut level (from.NextOn(level)):
none when the level is at or above the finger count, otherwise the next
member of the level chain (the first member for the head sentinel). -/
def mlTo (level : Nat) (nk : K) (s : MapS K) : Option K :=
  if level < mlFromH nk s then
    (if (mkeys s).head? = some nk then (chainL s level).head? else nextAfter nk (chainL s level))
  else none

/-- First node of the segment (from.Next() after the head substitution). -/
def mlSegStart (nk : K) (s : MapS K) : Option K :=
  if (mkeys s).head? = some nk then (mkeys s).head? else nextAfter nk (mkeys s)

/-- Lower cut bound: none (head sentinel) when nk is the first node. -/
def mlLo (nk : K) (s : MapS K) : Option K :=
  if (mkeys s).head? = some nk then none else some nk

/-- Model of MapL.Cut at a level, starting from the live node with key nk.
When nk is the first node the excision starts from the head sentinel
instead (whose finger array has L slots); to is the finger of the cutting
node at the cut level, none when the level is at or above its height.
When the start finger of the segment already equals to, nothing happens.
Otherwise the nodes strictly between are unlinked from the node chain and
from every chain the cutting node has a finger into; chains at or above
the finger count of the cutting node are left untouched, faithful to the
loop over the finger array of the cutting node in the source. -/
def mlCut (level : Nat) (nk : K) (s : MapS K) : Option (List K) × MapS K :=
  if mlSegStart nk s = mlTo level nk s then (none, s)
  else
    (some (segBetween (mlLo nk s) (mlTo level nk s) (mkeys s)),
      { nodes := nodesCutSeg (mlLo nk s) (mlTo level nk s) s.nodes,
        hichains := mapLevel
          (fun i c => if i + 1 < mlFromH nk s then cutSeg (mlLo nk s) (mlTo level nk s) c else c)
          0 s.hichains,
        length := s.length - (segBetween (mlLo nk s) (mlTo level nk s) (mkeys s)).length })

/-- Model of NewMap. -/
def emptyMap : MapS K :=
  { nodes := [], hichains := List.replicate (L - 1) ([] : List K), length := 0 }

/-- Invariants I1 to I5 of the spec for the level-view map: strict level-0
order (I1 and I6 for level 0), length accuracy (I4), L head finger slots
(I5), and every higher chain holding exactly the live nodes taller than
the level, which packages strict order of the higher chains (I1), level
containment (I2) and the density of level 0 (I3). -/
def MInv (s : MapS K) : Prop :=
  List.Sorted (· < ·) (mkeys s) ∧
  s.length = (s.nodes.length : Int) ∧
  s.hichains.length = L - 1 ∧
  ∀ i < L - 1, s.hichains.getD i [] = (s.nodes.filter (fun p => decide (i + 1 < p.2))).map Prod.fst

end MapLOps

section GF2Ops

/-- Arc of the GF2 field: remaining subdivision rank and bounds. -/
structure Arc where
  rank : Nat
  lo : Nat
  hi : Nat
deriving DecidableEq

/-- Model of GF2 over a w-bit unsigned key type: the engine Set of arc
upper bounds and the arc dictionary (a Go map; absent keys read as the
zero Arc). -/
structure GF2S where
  keys : SetS Nat
  arcs : Nat → Option Arc

/-- Model of GF2.Add.  The none result models the panic on a failed
successor lookup (diagnostic: non-continuous field).  The rank drawn for
the inserted key mid is passed as h. -/
def gf2Add (h k : Nat) (f : GF2S) : Option (Arc × Arc × GF2S) :=
  match setSuccessor k f.keys with
  | none => none
  | some hi =>
    let tl := (f.arcs hi).getD ⟨0, 0, 0⟩
    if tl.rank = 0 then some (tl, tl, f)
    else
      let rnk := tl.rank - 1
      let mid := tl.lo + (hi - tl.lo) / 2
      let headArc : Arc := ⟨rnk, tl.lo, mid⟩
      let tailArc : Arc := ⟨rnk, mid + 1, tl.hi⟩
      some (headArc, tailArc,
        { keys := (setAdd h mid f.keys).2,
          arcs := fun x =>
            if x = hi then some tailArc
            else if x = mid then some headArc
            else f.arcs x })

/-- Model of GF2.Get; none models the panic on a failed successor lookup. -/
def gf2Get (k : Nat) (f : GF2S) : Option Arc :=
  match setSuccessor k f.keys with
  | none => none
  | some hi => some ((f.arcs hi).getD ⟨0, 0, 0⟩)

/-- Model of NewGF2 for a w-bit key type: the top key is inserted with
some oracle rank h and covers the whole domain with rank w. -/
def newGF2 (w h : Nat) : GF2S :=
  { keys := (setAdd h (2 ^ w - 1) (emptySet false)).2,
    arcs := fun x => if x = 2 ^ w - 1 then some ⟨w, 0, 2 ^ w - 1⟩ else none }

/-- Coverage check: walking the engine keys in order, each key carries an
arc that starts exactly where the previous arc ended, ends at its own
key, has the size of a power of two given by its rank, and the arcs
together cover exactly the interval up to 2 ^ w - 1. -/
def partitionOkB (arcs : Nat → Option Arc) (w : Nat) : Nat → List Nat → Bool
  | lo, [] => lo == 2 ^ w
  | lo, k :: ks =>
    match arcs k with
    | none => false
    | some a =>
      (a.lo == lo && a.hi == k && (k + 1 == lo + 2 ^ a.rank)) && partitionOkB arcs w (k + 1) ks

/-- Coverage invariant of the GF2 field: a well formed engine Set whose
level-0 keys, read in order, carry arcs that partition the w-bit domain. -/
def GF2Inv (w : Nat) (f : GF2S) : Prop :=
  SetWF f.keys ∧ partitionOkB f.arcs w 0 (chain0 f.keys) = true

end GF2Ops

section HashMapOps

variable {K V : Type} [LinearOrder K]

/-- Model of skiplist.HashMap: an unordered key to value dictionary (a Go
map, modelled as a function) next to the ordered Set of keys. -/
structure HMS (K V : Type) where
  values : K → Option V
  keys : SetS K

/-- Model of HashMap.Put: overwrite and report false when the dictionary
already holds the key, otherwise store the pair and add the key to the
Set (with oracle rank h). -/
def hmPut (h : Nat) (k : K) (v : V) (st : HMS K V) : Bool × HMS K V :=
  if (st.values k).isSome then
    (false, { st with values := fun x => if x = k then some v else st.values x })
  else
    (true, { values := fun x => if x = k then some v else st.values x,
             keys := (setAdd h k st.keys).2 })

/-- Model of HashMap.Get. -/
def hmGet (k : K) (st : HMS K V) : Option V := st.values k

/-- Model of HashMap.Cut: delete from both stores when present. -/
def hmCut (k : K) (st : HMS K V) : Option V × HMS K V :=
  match st.values k with
  | none => (none, st)
  | some v =>
    (some v, { values := fun x => if x = k then none else st.values x,
               keys := (setCut k st.keys).2.2 })

/-- Model of HashMap.Split: split the key Set, then move the value of
every key on the tail level-0 chain into the tail dictionary. -/
def hmSplit (k : K) (st : HMS K V) : HMS K V × HMS K V :=
  let p := setSplit k st.keys
  let tailKs := chain0 p.2
  ( { values := fun x => if x ∈ tailKs then none else st.values x, keys := p.1 },
    { values := fun x => if x ∈ tailKs then st.values x else none, keys := p.2 } )

/-- Model of NewHashMap. -/
def emptyHM (b : Bool) : HMS K V := { values := fun _ => none, keys := emptySet b }

/-- Dual-storage consistency: a key is in the dictionary exactly when it
is on the level-0 chain of the Set, and the Set is well formed. -/
def HMInv (st : HMS K V) : Prop :=
  SetWF st.keys ∧ ∀ x, (st.values x).isSome ↔ x ∈ chain0 st.keys

/-- HashMap states reachable by Put, Cut and Split from a fresh map. -/
inductive HMReach : HMS K V → Prop where
  | new (b : Bool) : HMReach (emptyHM b)
  | put (st : HMS K V) (h : Nat) (k : K) (v : V) (h1 : 1 ≤ h) (h2 : h ≤ L) :
      HMReach st → HMReach (hmPut h k v st).2
  | cut (st : HMS K V) (k : K) : HMReach st → HMReach (hmCut k st).2
  | splitL (st : HMS K V) (k : K) : HMReach st → HMReach (hmSplit k st).1
  | splitR (st : HMS K V) (k : K) : HMReach st → HMReach (hmSplit k st).2

end HashMapOps

/-- Concrete Set state used by witnesses: a fresh Set of Int keys. -/
def sInt0 : SetS Int := emptySet false

/-- Concrete Set state used by witnesses: the fresh Set after Add(5) with
oracle rank 1. -/
def sInt1 : SetS Int := (setAdd 1 5 sInt0).2

/-- Concrete HashMap state used by witnesses: a fresh map of Int to Int. -/
def hmInt0 : HMS Int Int := emptyHM false

/-- One-node integer map: key 5 stored at height 2, produced by the
level-capped put with ceiling 2 on the empty map. -/
def mInt1 : MapS Int := (mlPut 2 (5 : Int) emptyMap).2

section ChainLemmas

variable {K : Type} [LinearOrder K]

theorem mem_insertChain {k x : K} : ∀ {c : List K}, x ∈ insertChain k c ↔ x = k ∨ x ∈ c := by
  intro c
  induction c with
  | nil => simp [insertChain]
  | cons a cs ih =>
    by_cases h : a < k
    · simp only [insertChain, if_pos h, List.mem_cons, ih]
      tauto
    · simp only [insertChain, if_neg h, List.mem_cons]

theorem length_insertChain (k : K) : ∀ (c : List K), (insertChain k c).length = c.length + 1 := by
  intro c
  induction c with
  | nil => rfl
  | cons a cs ih =>
    by_cases h : a < k <;> simp [insertChain, h, ih]

theorem sorted_insertChain {k : K} :
    ∀ {c : List K}, List.Sorted (· < ·) c → k ∉ c → List.Sorted (· < ·) (insertChain k c) := by
  intro c
  induction c with
  | nil => intro _ _; simp [insertChain]
  | cons a cs ih =>
    intro hs hk
    rw [List.sorted_cons] at hs
    obtain ⟨ha, hcs⟩ := hs
    have hka : k ≠ a := fun e => hk (e ▸ List.mem_cons_self a cs)
    have hkcs : k ∉ cs := fun e => hk (List.mem_cons_of_mem a e)
    by_cases h : a < k
    · rw [insertChain, if_pos h, List.sorted_cons]
      refine ⟨fun b hb => ?_, ih hcs hkcs⟩
      rcases mem_insertChain.mp hb with rfl | hb
      · exact h
      · exact ha b hb
    · have hak : k < a := lt_of_le_of_ne (le_of_not_lt h) hka
      rw [insertChain, if_neg h, List.sorted_cons]
      refine ⟨fun b hb => ?_, List.sorted_cons.mpr ⟨ha, hcs⟩⟩
      rcases List.mem_cons.mp hb with rfl | hb
      · exact hak
      · exact hak.trans (ha b hb)

theorem cutChain_eq_filter {k : K} :
    ∀ {c : List K}, List.Sorted (· < ·) c → cutChain k c = c.filter (fun x => !decide (x = k)) := by
  intro c
  induction c with
  | nil => intro _; rfl
  | cons a cs ih =>
    intro hs
    rw [List.sorted_cons] at hs
    obtain ⟨ha, hcs⟩ := hs
    by_cases he : a = k
    · subst he
      have h : ¬a < a := lt_irrefl a
      rw [cutChain, if_neg h, if_pos rfl, List.filter_cons, if_neg (by simp)]
      rw [List.filter_eq_self.mpr]
      intro b hb
      simp [ne_of_gt (ha b hb)]
    · by_cases h : a < k
      · rw [cutChain, if_pos h, List.filter_cons, if_pos (by simp [he]), ih hcs]
      · have hka : k < a := lt_of_le_of_ne (le_of_not_lt h) (Ne.symm he)
        rw [cutChain, if_neg h, if_neg he, List.filter_cons, if_pos (by simp [he])]
        rw [List.filter_eq_self.mpr]
        intro b hb
        simp [ne_of_gt (hka.trans (ha b hb))]

theorem findGE_eq_none {k : K} {c : List K} : findGE k c = none ↔ ∀ x ∈ c, x < k := by
  simp [findGE, List.find?_eq_none]

theorem findGE_mem {k x : K} {c : List K} (h : findGE k c = some x) : x ∈ c :=
  List.mem_of_find?_eq_some h

theorem findGE_ge {k x : K} {c : List K} (h : findGE k c = some x) : k ≤ x := by
  have := List.find?_some h
  simpa using this

theorem findGE_of_mem {k : K} :
    ∀ {c : List K}, List.Sorted (· < ·) c → k ∈ c → findGE k c = some k := by
  intro c
  induction c with
  | nil => intro _ h; cases h
  | cons a cs ih =>
    intro hs hk
    rw [List.sorted_cons] at hs
    obtain ⟨ha, hcs⟩ := hs
    rcases List.mem_cons.mp hk with rfl | hk
    · simp [findGE, List.find?_cons]
    · have hak : a < k := ha k hk
      have : (!decide (a < k)) = false := by simp [hak]
      simp only [findGE, List.find?_cons, this]
      exact ih hcs hk

theorem findGE_least {k : K} :
    ∀ {c : List K}, List.Sorted (· < ·) c → ∀ {x : K}, findGE k c = some x →
      ∀ y ∈ c, k ≤ y → x ≤ y := by
  intro c
  induction c with
  | nil => intro _ x h; cases h
  | cons a cs ih =>
    intro hs x hx y hy hky
    rw [List.sorted_cons] at hs
    obtain ⟨ha, hcs⟩ := hs
    by_cases h : a < k
    · have : (!decide (a < k)) = false := by simp [h]
      rw [findGE, List.find?_cons, this] at hx
      rcases List.mem_cons.mp hy with rfl | hy
      · exact absurd hky (not_le_of_lt h)
      · exact ih hcs hx y hy hky
    · have : (!decide (a < k)) = true := by simp [h]
      rw [findGE, List.find?_cons, this] at hx
      obtain rfl : a = x := by injection hx
      rcases List.mem_cons.mp hy with rfl | hy
      · exact le_refl _
      · exact le_of_lt (ha y hy)

theorem findGE_some_self_iff {k : K} {c : List K} (hs : List.Sorted (· < ·) c) :
    findGE k c = some k ↔ k ∈ c :=
  ⟨fun h => findGE_mem h, fun h => findGE_of_mem hs h⟩

theorem sorted_takeWhile_eq_filter (p : K → Bool)
    (hp : ∀ x y : K, x < y → p y = true → p x = true) :
    ∀ {c : List K}, List.Sorted (· < ·) c → c.takeWhile p = c.filter p := by
  intro c
  induction c with
  | nil => intro _; rfl
  | cons a cs ih =>
    intro hs
    rw [List.sorted_cons] at hs
    obtain ⟨ha, hcs⟩ := hs
    cases hpa : p a with
    | true => simp [List.takeWhile_cons, List.filter_cons, hpa, ih hcs]
    | false =>
      simp only [List.takeWhile_cons, hpa, List.filter_cons, Bool.false_eq_true, if_false]
      rw [List.filter_eq_nil_iff.mpr]
      intro b hb hpb
      exact absurd (hp a b (ha b hb) hpb) (by simp [hpa])

theorem sorted_dropWhile_eq_filter (p : K → Bool)
    (hp : ∀ x y : K, x < y → p y = true → p x = true) :
    ∀ {c : List K}, List.Sorted (· < ·) c → c.dropWhile p = c.filter (fun x => !p x) := by
  intro c
  induction c with
  | nil => intro _; rfl
  | cons a cs ih =>
    intro hs
    rw [List.sorted_cons] at hs
    obtain ⟨ha, hcs⟩ := hs
    cases hpa : p a with
    | true => simp [List.dropWhile_cons, List.filter_cons, hpa, ih hcs]
    | false =>
      simp only [List.dropWhile_cons, hpa, Bool.false_eq_true, if_false, List.filter_cons,
        Bool.not_false, if_true]
      rw [List.filter_eq_self.mpr]
      intro b hb
      cases hpb : p b with
      | true => exact absurd (hp a b (ha b hb) hpb) (by simp [hpa])
      | false => simp

end ChainLemmas

section OracleLemmas

theorem levelUp_le (p : ℚ) : ∀ (pt : List ℚ) (m : Nat), levelUp p pt m ≤ m := by
  intro pt
  induction pt with
  | nil => intro m; cases m <;> simp [levelUp]
  | cons q qs ih =>
    intro m
    cases m with
    | zero => simp [levelUp]
    | succ m' =>
      by_cases h : p < q
      · rw [levelUp, if_pos h]
        exact Nat.succ_le_succ (ih m')
      · rw [levelUp, if_neg h]
        exact Nat.zero_le _

theorem levelUp_pos (p q : ℚ) (qs : List ℚ) (m : Nat) (hq : p < q) :
    1 ≤ levelUp p (q :: qs) (m + 1) := by
  rw [levelUp, if_pos hq]
  exact Nat.succ_le_succ (Nat.zero_le _)

end OracleLemmas

section SetLemmas

variable {K : Type} [LinearOrder K]

theorem length_insertLevels (k : K) :
    ∀ (h : Nat) (cs : List (List K)), (insertLevels k h cs).length = cs.length := by
  intro h
  induction h with
  | zero => intro cs; cases cs <;> rfl
  | succ h' ih =>
    intro cs
    cases cs with
    | nil => rfl
    | cons c rest => simp [insertLevels, ih]

theorem mem_insertLevels {k : K} {c' : List K} :
    ∀ {h : Nat} {cs : List (List K)}, c' ∈ insertLevels k h cs →
      c' ∈ cs ∨ ∃ c ∈ cs, c' = insertChain k c := by
  intro h
  induction h with
  | zero =>
    intro cs hm
    cases cs with
    | nil => cases hm
    | cons c rest => exact Or.inl hm
  | succ h' ih =>
    intro cs hm
    cases cs with
    | nil => cases hm
    | cons c rest =>
      rw [insertLevels] at hm
      rcases List.mem_cons.mp hm with rfl | hm
      · exact Or.inr ⟨c, List.mem_cons_self c rest, rfl⟩
      · rcases ih hm with hin | ⟨c1, hc1, he⟩
        · exact Or.inl (List.mem_cons_of_mem c hin)
        · exact Or.inr ⟨c1, List.mem_cons_of_mem c hc1, he⟩

theorem chains_decomp {s : SetS K} (hwf : SetWF s) :
    ∃ rest, s.chains = chain0 s :: rest := by
  obtain ⟨hlen, _⟩ := hwf
  cases hc : s.chains with
  | nil => rw [hc] at hlen; simp [L] at hlen
  | cons c0 rest => exact ⟨rest, by simp [chain0, hc]⟩

theorem chain0_sorted {s : SetS K} (hwf : SetWF s) : List.Sorted (· < ·) (chain0 s) := by
  obtain ⟨rest, hc⟩ := chains_decomp hwf
  exact hwf.2.1 _ (hc ▸ List.mem_cons_self _ _)

theorem notMem_of_findGE_ne {s : SetS K} (hwf : SetWF s) {k : K}
    (h : ¬findGE k (chain0 s) = some k) : k ∉ chain0 s :=
  fun hm => h (findGE_of_mem (chain0_sorted hwf) hm)

theorem chain0_setAdd {s : SetS K} (hwf : SetWF s) {h : Nat} {k : K} (h1 : 1 ≤ h)
    (hmiss : ¬findGE k (chain0 s) = some k) :
    chain0 (setAdd h k s).2 = insertChain k (chain0 s) := by
  obtain ⟨rest, hc⟩ := chains_decomp hwf
  rw [setAdd, if_neg hmiss]
  obtain ⟨h', rfl⟩ := Nat.exists_eq_add_of_le h1
  show (insertLevels k (1 + h') s.chains).getD 0 [] = insertChain k (chain0 s)
  rw [hc, Nat.add_comm 1 h']
  rfl

theorem setWF_setAdd {s : SetS K} (hwf : SetWF s) (h : Nat) (k : K) (h1 : 1 ≤ h) :
    SetWF (setAdd h k s).2 := by
  by_cases hg : findGE k (chain0 s) = some k
  · rw [setAdd, if_pos hg]
    exact hwf
  · have hk0 : k ∉ chain0 s := notMem_of_findGE_ne hwf hg
    obtain ⟨rest, hc⟩ := chains_decomp hwf
    obtain ⟨hlen, hsort, hsub, hlen0⟩ := hwf
    rw [setAdd, if_neg hg]
    obtain ⟨h', rfl⟩ := Nat.exists_eq_add_of_le h1
    have hch : insertLevels k (1 + h') s.chains
        = insertChain k (chain0 s) :: insertLevels k h' rest := by
      rw [hc]
      have : 1 + h' = h' + 1 := Nat.add_comm 1 h'
      rw [this]
      rfl
    refine ⟨?_, ?_, ?_, ?_⟩
    · simpa [length_insertLevels] using hlen
    · intro c hcm
      simp only [hch] at hcm
      rcases List.mem_cons.mp hcm with rfl | hcm
      · exact sorted_insertChain (chain0_sorted ⟨hlen, hsort, hsub, hlen0⟩) hk0
      · rcases mem_insertLevels hcm with hin | ⟨c1, hc1, rfl⟩
        · exact hsort _ (hc ▸ List.mem_cons_of_mem _ hin)
        · have hc1m : c1 ∈ s.chains := hc ▸ List.mem_cons_of_mem _ hc1
          have hc1s : List.Sorted (· < ·) c1 := hsort _ hc1m
          have hk1 : k ∉ c1 := by
            intro hkm
            exact hk0 (hsub c1 (by rw [hc]; exact hc1) k hkm)
          exact sorted_insertChain hc1s hk1
    · intro c hcm x hx
      have hcm' : c ∈ insertLevels k h' rest := by
        simpa [hch] using hcm
      have hx0 : x = k ∨ x ∈ chain0 s := by
        rcases mem_insertLevels hcm' with hin | ⟨c1, hc1, rfl⟩
        · exact Or.inr (hsub c (by rw [hc]; exact hin) x hx)
        · rcases mem_insertChain.mp hx with rfl | hx1
          · exact Or.inl rfl
          · exact Or.inr (hsub c1 (by rw [hc]; exact hc1) x hx1)
      have : chain0 (setAdd (1 + h') k s).2 = insertChain k (chain0 s) :=
        chain0_setAdd ⟨hlen, hsort, hsub, hlen0⟩ (Nat.le_add_right 1 h') hg
      rw [setAdd, if_neg hg] at this
      simp only at this
      rw [this]
      rcases hx0 with rfl | hx0
      · exact mem_insertChain.mpr (Or.inl rfl)
      · exact mem_insertChain.mpr (Or.inr hx0)
    · have : chain0 (setAdd (1 + h') k s).2 = insertChain k (chain0 s) :=
        chain0_setAdd ⟨hlen, hsort, hsub, hlen0⟩ (Nat.le_add_right 1 h') hg
      rw [setAdd, if_neg hg] at this
      simp only at this
      rw [this, length_insertChain]
      push_cast
      omega

theorem length_cutChain_of_mem {k : K} :
    ∀ {c : List K}, List.Sorted (· < ·) c → k ∈ c → (cutChain k c).length + 1 = c.length := by
  intro c
  induction c with
  | nil => intro _ h; cases h
  | cons a cs ih =>
    intro hs hk
    rw [List.sorted_cons] at hs
    obtain ⟨ha, hcs⟩ := hs
    by_cases he : a = k
    · subst he
      rw [cutChain, if_neg (lt_irrefl a), if_pos rfl]
      rfl
    · have hk' : k ∈ cs := by
        rcases List.mem_cons.mp hk with rfl | hk'
        · exact absurd rfl he
        · exact hk'
      have hak : a < k := ha k hk'
      rw [cutChain, if_pos hak]
      have hih := ih hcs hk'
      simp only [List.length_cons]
      omega

theorem chain0_setCut {s : SetS K} (hwf : SetWF s) {k : K}
    (hhit : findGE k (chain0 s) = some k) :
    chain0 (setCut k s).2.2 = cutChain k (chain0 s) := by
  obtain ⟨rest, hc⟩ := chains_decomp hwf
  unfold setCut
  rw [hhit]
  simp only [if_pos rfl]
  show (s.chains.map (cutChain k)).getD 0 [] = cutChain k (chain0 s)
  rw [hc]
  rfl

theorem setWF_setCut {s : SetS K} (hwf : SetWF s) (k : K) : SetWF (setCut k s).2.2 := by
  obtain ⟨rest, hc⟩ := chains_decomp hwf
  obtain ⟨hlen, hsort, hsub, hlen0⟩ := hwf
  have hwf' : SetWF s := ⟨hlen, hsort, hsub, hlen0⟩
  cases hg : findGE k (chain0 s) with
  | none =>
    unfold setCut
    rw [hg]
    exact hwf'
  | some x =>
    by_cases he : x = k
    · subst he
      have hk0 : x ∈ chain0 s := findGE_mem hg
      unfold setCut
      rw [hg]
      simp only [if_pos rfl]
      refine ⟨?_, ?_, ?_, ?_⟩
      · show (s.chains.map (cutChain x)).length = L
        rw [List.length_map]
        exact hlen
      · intro c hcm
        have hcm2 : c ∈ s.chains.map (cutChain x) := hcm
        simp only [List.mem_map] at hcm2
        obtain ⟨c1, hc1, rfl⟩ := hcm2
        rw [cutChain_eq_filter (hsort c1 hc1)]
        exact List.Pairwise.filter _ (hsort c1 hc1)
      · intro c hcm y hy
        have hcm' : c ∈ rest.map (cutChain x) := by
          rw [hc] at hcm
          simpa using hcm
        simp only [List.mem_map] at hcm'
        obtain ⟨c1, hc1, rfl⟩ := hcm'
        have hc1m : c1 ∈ s.chains := hc ▸ List.mem_cons_of_mem _ hc1
        rw [cutChain_eq_filter (hsort c1 hc1m)] at hy
        rw [List.mem_filter] at hy
        obtain ⟨hy1, hy2⟩ := hy
        have hy0 : y ∈ chain0 s := hsub c1 (by rw [hc]; exact hc1) y hy1
        show y ∈ (s.chains.map (cutChain x)).getD 0 []
        rw [hc]
        show y ∈ cutChain x (chain0 s)
        rw [cutChain_eq_filter (chain0_sorted hwf'), List.mem_filter]
        exact ⟨hy0, hy2⟩
      · show s.length - 1 = (((s.chains.map (cutChain x)).getD 0 []).length : Int)
        rw [hc]
        show s.length - 1 = ((cutChain x (chain0 s)).length : Int)
        have hl := length_cutChain_of_mem (chain0_sorted hwf') hk0
        rw [hlen0]
        omega
    · unfold setCut
      rw [hg]
      simp only [if_neg he]
      exact hwf'

theorem setWF_setSplit_left {s : SetS K} (hwf : SetWF s) (k : K) :
    SetWF (setSplit k s).1 := by
  obtain ⟨rest, hc⟩ := chains_decomp hwf
  obtain ⟨hlen, hsort, hsub, hlen0⟩ := hwf
  have hwf' : SetWF s := ⟨hlen, hsort, hsub, hlen0⟩
  have hanti : ∀ x y : K, x < y → decide (y < k) = true → decide (x < k) = true := by
    intro x y hxy hy
    simp only [decide_eq_true_eq] at hy ⊢
    exact hxy.trans hy
  refine ⟨?_, ?_, ?_, ?_⟩
  · show (s.chains.map (fun c => c.takeWhile (fun x => decide (x < k)))).length = L
    rw [List.length_map]
    exact hlen
  · intro c hcm
    simp only [setSplit, List.mem_map] at hcm
    obtain ⟨c1, hc1, rfl⟩ := hcm
    exact List.Pairwise.sublist (List.takeWhile_sublist _) (hsort c1 hc1)
  · intro c hcm y hy
    have hcm' : c ∈ rest.map (fun c => c.takeWhile (fun x => decide (x < k))) := by
      have : (setSplit k s).1.chains = s.chains.map (fun c => c.takeWhile (fun x => decide (x < k))) := rfl
      rw [this, hc] at hcm
      simpa using hcm
    simp only [List.mem_map] at hcm'
    obtain ⟨c1, hc1, rfl⟩ := hcm'
    have hc1m : c1 ∈ s.chains := hc ▸ List.mem_cons_of_mem _ hc1
    rw [sorted_takeWhile_eq_filter _ hanti (hsort c1 hc1m), List.mem_filter] at hy
    obtain ⟨hy1, hy2⟩ := hy
    have hy0 : y ∈ chain0 s := hsub c1 (by rw [hc]; exact hc1) y hy1
    show y ∈ ((setSplit k s).1.chains).getD 0 []
    have : (setSplit k s).1.chains = s.chains.map (fun c => c.takeWhile (fun x => decide (x < k))) := rfl
    rw [this, hc]
    show y ∈ (chain0 s).takeWhile (fun x => decide (x < k))
    rw [sorted_takeWhile_eq_filter _ hanti (chain0_sorted hwf'), List.mem_filter]
    exact ⟨hy0, hy2⟩
  · show s.length - ((chain0 s).dropWhile (fun x => decide (x < k))).length
      = ((((setSplit k s).1.chains).getD 0 []).length : Int)
    have : (setSplit k s).1.chains = s.chains.map (fun c => c.takeWhile (fun x => decide (x < k))) := rfl
    rw [this, hc]
    show s.length - ((chain0 s).dropWhile (fun x => decide (x < k))).length
      = (((chain0 s).takeWhile (fun x => decide (x < k))).length : Int)
    have hsplit : (chain0 s).takeWhile (fun x => decide (x < k))
        ++ (chain0 s).dropWhile (fun x => decide (x < k)) = chain0 s :=
      List.takeWhile_append_dropWhile _ _
    have hlsum : ((chain0 s).takeWhile (fun x => decide (x < k))).length
        + ((chain0 s).dropWhile (fun x => decide (x < k))).length = (chain0 s).length := by
      rw [← List.length_append, hsplit]
    rw [hlen0]
    omega

theorem setWF_setSplit_right {s : SetS K} (hwf : SetWF s) (k : K) :
    SetWF (setSplit k s).2 := by
  refine ⟨?_, ?_, ?_, ?_⟩
  · show (((chain0 s).dropWhile (fun x => decide (x < k))) :: List.replicate (L - 1) []).length = L
    simp [L]
  · intro c hcm
    rcases List.mem_cons.mp hcm with rfl | hcm
    · exact List.Pairwise.sublist (List.dropWhile_sublist _) (chain0_sorted hwf)
    · rw [List.eq_of_mem_replicate hcm]
      exact List.sorted_nil
  · intro c hcm y hy
    have : c = [] := List.eq_of_mem_replicate hcm
    rw [this] at hy
    cases hy
  · rfl

theorem setWF_empty (b : Bool) : SetWF (emptySet b : SetS K) := by
  refine ⟨by simp [emptySet], ?_, ?_, ?_⟩
  · intro c hcm
    rw [List.eq_of_mem_replicate hcm]
    exact List.sorted_nil
  · intro c hcm y hy
    have hre : c ∈ List.replicate (L - 1) ([] : List K) := by
      simpa [emptySet, L] using hcm
    rw [List.eq_of_mem_replicate hre] at hy
    cases hy
  · simp [emptySet, chain0, L]

theorem setReach_wf {s : SetS K} (hr : SetReach s) : SetWF s := by
  induction hr with
  | new b => exact setWF_empty b
  | add s h k h1 h2 _ ih => exact setWF_setAdd ih h k h1
  | cut s k _ ih => exact setWF_setCut ih k
  | splitL s k _ ih => exact setWF_setSplit_left ih k
  | splitR s k _ ih => exact setWF_setSplit_right ih k

theorem chain0_setSplit_left {s : SetS K} (hwf : SetWF s) (k : K) :
    chain0 (setSplit k s).1 = (chain0 s).takeWhile (fun x => decide (x < k)) := by
  obtain ⟨rest, hc⟩ := chains_decomp hwf
  show (s.chains.map (fun c => c.takeWhile (fun x => decide (x < k)))).getD 0 []
    = (chain0 s).takeWhile (fun x => decide (x < k))
  rw [hc]
  rfl

theorem chain0_setSplit_right (s : SetS K) (k : K) :
    chain0 (setSplit k s).2 = (chain0 s).dropWhile (fun x => decide (x < k)) := rfl

theorem lt_antitone_decide (k : K) :
    ∀ x y : K, x < y → decide (y < k) = true → decide (x < k) = true := by
  intro x y hxy hy
  simp only [decide_eq_true_eq] at hy ⊢
  exact hxy.trans hy

end SetLemmas

section SetClaims

variable {K : Type} [LinearOrder K]

/-- C1: for every reachable set and key k, if no element equal to k is on
the level-0 chain, Add inserts it, increments the stored length by one and
reports true; if an equal element is present, Add reports false with the
existing element and changes nothing, so a repeated Add leaves the length
unchanged. -/
theorem claim1_add (s : SetS K) (k : K) (h : Nat) (hr : SetReach s)
    (h1 : 1 ≤ h) (_hL : h ≤ L) :
    (k ∈ chain0 s → setAdd h k s = (false, s)) ∧
    (k ∉ chain0 s →
      (setAdd h k s).1 = true ∧
      k ∈ chain0 (setAdd h k s).2 ∧
      (setAdd h k s).2.length = s.length + 1) ∧
    (∀ h3 : Nat, setAdd h3 k (setAdd h k s).2 = (false, (setAdd h k s).2)) := by
  have hwf := setReach_wf hr
  by_cases hk : k ∈ chain0 s
  · have hg : findGE k (chain0 s) = some k := findGE_of_mem (chain0_sorted hwf) hk
    have hfix : setAdd h k s = (false, s) := by rw [setAdd, if_pos hg]
    refine ⟨fun _ => hfix, fun hk' => absurd hk hk', fun h3 => ?_⟩
    rw [hfix]
    show setAdd h3 k s = (false, s)
    rw [setAdd, if_pos hg]
  · have hg : ¬findGE k (chain0 s) = some k := fun hx => hk (findGE_mem hx)
    have hc0 : chain0 (setAdd h k s).2 = insertChain k (chain0 s) :=
      chain0_setAdd hwf h1 hg
    refine ⟨fun hk' => absurd hk' hk, fun _ => ⟨?_, ?_, ?_⟩, fun h3 => ?_⟩
    · rw [setAdd, if_neg hg]
    · rw [hc0]
      exact mem_insertChain.mpr (Or.inl rfl)
    · rw [setAdd, if_neg hg]
    · have hwf' := setWF_setAdd hwf h k h1
      have hk' : k ∈ chain0 (setAdd h k s).2 := by
        rw [hc0]; exact mem_insertChain.mpr (Or.inl rfl)
      have hg' : findGE k (chain0 (setAdd h k s).2) = some k :=
        findGE_of_mem (chain0_sorted hwf') hk'
      rw [setAdd, if_pos hg']

/-- C1 witness at a concrete input. -/
theorem claim1_add_witness :
    ((5 : Int) ∈ chain0 sInt0 → setAdd 1 5 sInt0 = (false, sInt0)) ∧
    ((5 : Int) ∉ chain0 sInt0 →
      (setAdd 1 (5 : Int) sInt0).1 = true ∧
      (5 : Int) ∈ chain0 (setAdd 1 (5 : Int) sInt0).2 ∧
      (setAdd 1 (5 : Int) sInt0).2.length = sInt0.length + 1) ∧
    (∀ h3 : Nat, setAdd h3 (5 : Int) (setAdd 1 (5 : Int) sInt0).2
      = (false, (setAdd 1 (5 : Int) sInt0).2)) :=
  claim1_add sInt0 5 1 (SetReach.new false) (by decide) (by decide)

/-- C2: for every reachable container, Successor returns the least stored
key at or above k, none exactly when k is strictly above every stored key,
and the key itself when it is stored. -/
theorem claim2_successor (s : SetS K) (k : K) (hr : SetReach s) :
    (∀ x, setSuccessor k s = some x →
      x ∈ chain0 s ∧ k ≤ x ∧ ∀ y ∈ chain0 s, k ≤ y → x ≤ y) ∧
    (setSuccessor k s = none ↔ ∀ y ∈ chain0 s, y < k) ∧
    (k ∈ chain0 s → setSuccessor k s = some k) := by
  have hwf := setReach_wf hr
  refine ⟨fun x hx => ⟨findGE_mem hx, findGE_ge hx,
    findGE_least (chain0_sorted hwf) hx⟩, findGE_eq_none, fun hk =>
    findGE_of_mem (chain0_sorted hwf) hk⟩

/-- C2 witness at a concrete input. -/
theorem claim2_successor_witness :
    (∀ x, setSuccessor (5 : Int) sInt1 = some x →
      x ∈ chain0 sInt1 ∧ (5 : Int) ≤ x ∧
      ∀ y ∈ chain0 sInt1, (5 : Int) ≤ y → x ≤ y) ∧
    (setSuccessor (5 : Int) sInt1 = none ↔ ∀ y ∈ chain0 sInt1, y < (5 : Int)) ∧
    ((5 : Int) ∈ chain0 sInt1 → setSuccessor (5 : Int) sInt1 = some 5) :=
  claim2_successor sInt1 5
    (SetReach.add sInt0 1 5 (by decide) (by decide) (SetReach.new false))

/-- C3: strict order is an invariant of every reachable state: every
per-level chain is strictly sorted, in particular a level-0 traversal
(Values) emits strictly increasing keys. -/
theorem claim3_strict_order (s : SetS K) (hr : SetReach s) :
    (∀ c ∈ s.chains, List.Sorted (· < ·) c) ∧ List.Sorted (· < ·) (setValues s) := by
  have hwf := setReach_wf hr
  exact ⟨hwf.2.1, chain0_sorted hwf⟩

/-- C3 witness at a concrete input. -/
theorem claim3_strict_order_witness :
    (∀ c ∈ sInt1.chains, List.Sorted (· < ·) c) ∧
    List.Sorted (· < ·) (setValues sInt1) :=
  claim3_strict_order sInt1
    (SetReach.add sInt0 1 5 (by decide) (by decide) (SetReach.new false))

/-- C4: for every reachable container, Cut of an absent key reports false
with a null node and leaves the container unchanged; Cut of a present key
reports true with the node, splices the key out of exactly the levels
holding it, decrements the stored length by one and passes the key to the
Free hook exactly when an allocator is configured. -/
theorem claim4_cut (s : SetS K) (k : K) (hr : SetReach s) :
    (k ∉ chain0 s → setCut k s = (false, none, s)) ∧
    (k ∈ chain0 s →
      (setCut k s).1 = true ∧
      (setCut k s).2.1 = some k ∧
      (setCut k s).2.2.length = s.length - 1 ∧
      (setCut k s).2.2.chains = s.chains.map (cutChain k) ∧
      (∀ c ∈ s.chains, ∀ x, x ∈ cutChain k c ↔ x ∈ c ∧ x ≠ k) ∧
      (s.hasMalloc = true → (setCut k s).2.2.freed = s.freed ++ [k]) ∧
      (s.hasMalloc = false → (setCut k s).2.2.freed = s.freed)) := by
  have hwf := setReach_wf hr
  constructor
  · intro hk
    have hg : findGE k (chain0 s) ≠ some k := fun hx => hk (findGE_mem hx)
    unfold setCut
    cases hgg : findGE k (chain0 s) with
    | none => rfl
    | some x =>
      have hne : x ≠ k := fun he => hg (he ▸ hgg)
      simp only [if_neg hne]
  · intro hk
    have hg : findGE k (chain0 s) = some k := findGE_of_mem (chain0_sorted hwf) hk
    have hred : setCut k s = (true, some k,
        { s with chains := s.chains.map (cutChain k),
                 length := s.length - 1,
                 freed := if s.hasMalloc then s.freed ++ [k] else s.freed }) := by
      unfold setCut
      rw [hg]
      simp
    rw [hred]
    refine ⟨rfl, rfl, rfl, rfl, fun c hcm x => ?_, fun hb => ?_, fun hb => ?_⟩
    · rw [cutChain_eq_filter (hwf.2.1 c hcm), List.mem_filter]
      simp
    · simp [hb]
    · simp [hb]

/-- C4 witness at a concrete input. -/
theorem claim4_cut_witness :
    ((5 : Int) ∉ chain0 sInt1 → setCut 5 sInt1 = (false, none, sInt1)) ∧
    ((5 : Int) ∈ chain0 sInt1 →
      (setCut (5 : Int) sInt1).1 = true ∧
      (setCut (5 : Int) sInt1).2.1 = some 5 ∧
      (setCut (5 : Int) sInt1).2.2.length = sInt1.length - 1 ∧
      (setCut (5 : Int) sInt1).2.2.chains = sInt1.chains.map (cutChain 5) ∧
      (∀ c ∈ sInt1.chains, ∀ x, x ∈ cutChain (5 : Int) c ↔ x ∈ c ∧ x ≠ 5) ∧
      (sInt1.hasMalloc = true → (setCut (5 : Int) sInt1).2.2.freed = sInt1.freed ++ [5]) ∧
      (sInt1.hasMalloc = false → (setCut (5 : Int) sInt1).2.2.freed = sInt1.freed)) :=
  claim4_cut sInt1 5
    (SetReach.add sInt0 1 5 (by decide) (by decide) (SetReach.new false))

/-- C5: for every reachable container, Split leaves the source with
exactly the stored keys strictly below k, returns a container with
exactly the stored keys at or above k, the two lengths sum to the
original, the two containers are disjoint, and when k is above every
stored key the returned tail is an empty container (never null: Split
totally returns a container value). -/
theorem claim5_split (s : SetS K) (k : K) (hr : SetReach s) :
    (∀ x, x ∈ chain0 (setSplit k s).1 ↔ x ∈ chain0 s ∧ x < k) ∧
    (∀ x, x ∈ chain0 (setSplit k s).2 ↔ x ∈ chain0 s ∧ k ≤ x) ∧
    (setSplit k s).1.length + (setSplit k s).2.length = s.length ∧
    (∀ x, x ∈ chain0 (setSplit k s).1 → x ∉ chain0 (setSplit k s).2) ∧
    ((∀ y ∈ chain0 s, y < k) →
      (setSplit k s).2.length = 0 ∧ chain0 (setSplit k s).2 = []) := by
  have hwf := setReach_wf hr
  have hs0 := chain0_sorted hwf
  have hleft := chain0_setSplit_left hwf k
  have hright := chain0_setSplit_right s k
  have hmemL : ∀ x, x ∈ chain0 (setSplit k s).1 ↔ x ∈ chain0 s ∧ x < k := by
    intro x
    rw [hleft, sorted_takeWhile_eq_filter _ (lt_antitone_decide k) hs0, List.mem_filter]
    simp
  have hmemR : ∀ x, x ∈ chain0 (setSplit k s).2 ↔ x ∈ chain0 s ∧ k ≤ x := by
    intro x
    rw [hright, sorted_dropWhile_eq_filter _ (lt_antitone_decide k) hs0, List.mem_filter]
    simp
  refine ⟨hmemL, hmemR, ?_, ?_, ?_⟩
  · show (s.length - ((chain0 s).dropWhile (fun x => decide (x < k))).length)
      + (((chain0 s).dropWhile (fun x => decide (x < k))).length : Int) = s.length
    omega
  · intro x hxL hxR
    exact absurd ((hmemL x).mp hxL).2 (not_lt_of_le ((hmemR x).mp hxR).2)
  · intro hall
    have hnil : chain0 (setSplit k s).2 = [] := by
      rw [hright]
      rw [List.dropWhile_eq_nil_iff]
      intro x hx
      simp [hall x hx]
    constructor
    · show (((chain0 s).dropWhile (fun x => decide (x < k))).length : Int) = 0
      rw [← hright, hnil]
      rfl
    · exact hnil

/-- C5 witness at a concrete input. -/
theorem claim5_split_witness :
    (∀ x, x ∈ chain0 (setSplit (3 : Int) sInt1).1 ↔ x ∈ chain0 sInt1 ∧ x < 3) ∧
    (∀ x, x ∈ chain0 (setSplit (3 : Int) sInt1).2 ↔ x ∈ chain0 sInt1 ∧ 3 ≤ x) ∧
    (setSplit (3 : Int) sInt1).1.length + (setSplit (3 : Int) sInt1).2.length
      = sInt1.length ∧
    (∀ x, x ∈ chain0 (setSplit (3 : Int) sInt1).1 →
      x ∉ chain0 (setSplit (3 : Int) sInt1).2) ∧
    ((∀ y ∈ chain0 sInt1, y < 3) →
      (setSplit (3 : Int) sInt1).2.length = 0 ∧ chain0 (setSplit (3 : Int) sInt1).2 = []) :=
  claim5_split sInt1 3
    (SetReach.add sInt0 1 5 (by decide) (by decide) (SetReach.new false))

end SetClaims

section HashMapLemmas

variable {K V : Type} [LinearOrder K]

theorem mem_chain0_setSplit_left {s : SetS K} (hwf : SetWF s) (k x : K) :
    x ∈ chain0 (setSplit k s).1 ↔ x ∈ chain0 s ∧ x < k := by
  rw [chain0_setSplit_left hwf k,
    sorted_takeWhile_eq_filter _ (lt_antitone_decide k) (chain0_sorted hwf), List.mem_filter]
  simp

theorem mem_chain0_setSplit_right {s : SetS K} (hwf : SetWF s) (k x : K) :
    x ∈ chain0 (setSplit k s).2 ↔ x ∈ chain0 s ∧ k ≤ x := by
  rw [chain0_setSplit_right s k,
    sorted_dropWhile_eq_filter _ (lt_antitone_decide k) (chain0_sorted hwf), List.mem_filter]
  simp

theorem hmInv_empty (b : Bool) : HMInv (emptyHM b : HMS K V) := by
  refine ⟨setWF_empty b, fun x => ?_⟩
  show (none : Option V).isSome ↔ x ∈ chain0 (emptySet b : SetS K)
  rw [show chain0 (emptySet b : SetS K) = [] from rfl]
  simp

theorem hmInv_put {st : HMS K V} (hinv : HMInv st) (h : Nat) (k : K) (v : V) (h1 : 1 ≤ h) :
    HMInv (hmPut h k v st).2 := by
  obtain ⟨hwf, hiff⟩ := hinv
  by_cases hk : (st.values k).isSome
  · rw [hmPut, if_pos hk]
    refine ⟨hwf, fun x => ?_⟩
    show (if x = k then some v else st.values x).isSome ↔ x ∈ chain0 st.keys
    by_cases he : x = k
    · subst he
      have hxk := (hiff x).mp hk
      simp [hxk]
    · rw [if_neg he]
      exact hiff x
  · have hk0 : k ∉ chain0 st.keys := fun hm => hk ((hiff k).mpr hm)
    have hg : ¬findGE k (chain0 st.keys) = some k := fun hx => hk0 (findGE_mem hx)
    rw [hmPut, if_neg hk]
    refine ⟨setWF_setAdd hwf h k h1, fun x => ?_⟩
    show (if x = k then some v else st.values x).isSome ↔ x ∈ chain0 (setAdd h k st.keys).2
    rw [chain0_setAdd hwf h1 hg]
    by_cases he : x = k
    · subst he
      have hxm : x ∈ insertChain x (chain0 st.keys) := mem_insertChain.mpr (Or.inl rfl)
      simp [hxm]
    · rw [if_neg he, mem_insertChain]
      constructor
      · intro hx
        exact Or.inr ((hiff x).mp hx)
      · intro hx
        rcases hx with rfl | hx
        · exact absurd rfl he
        · exact (hiff x).mpr hx

theorem hmInv_cut {st : HMS K V} (hinv : HMInv st) (k : K) : HMInv (hmCut k st).2 := by
  obtain ⟨hwf, hiff⟩ := hinv
  cases hv : st.values k with
  | none =>
    unfold hmCut
    rw [hv]
    exact ⟨hwf, hiff⟩
  | some v =>
    have hk0 : k ∈ chain0 st.keys := (hiff k).mp (by simp [hv])
    have hg : findGE k (chain0 st.keys) = some k := findGE_of_mem (chain0_sorted hwf) hk0
    unfold hmCut
    rw [hv]
    refine ⟨setWF_setCut hwf k, fun x => ?_⟩
    show (if x = k then none else st.values x).isSome ↔ x ∈ chain0 (setCut k st.keys).2.2
    rw [chain0_setCut hwf hg, cutChain_eq_filter (chain0_sorted hwf), List.mem_filter]
    by_cases he : x = k
    · subst he
      simp
    · rw [if_neg he, hiff x]
      simp [he]

theorem hmInv_split_left {st : HMS K V} (hinv : HMInv st) (k : K) :
    HMInv (hmSplit k st).1 := by
  obtain ⟨hwf, hiff⟩ := hinv
  refine ⟨setWF_setSplit_left hwf k, fun x => ?_⟩
  show (if x ∈ chain0 (setSplit k st.keys).2 then none else st.values x).isSome
    ↔ x ∈ chain0 (setSplit k st.keys).1
  rw [mem_chain0_setSplit_left hwf k x]
  by_cases hm : x ∈ chain0 (setSplit k st.keys).2
  · rw [if_pos hm]
    have := (mem_chain0_setSplit_right hwf k x).mp hm
    simp only [Option.isSome_none, Bool.false_eq_true, false_iff]
    intro hcon
    exact absurd this.2 (not_le_of_lt hcon.2)
  · rw [if_neg hm, hiff x]
    constructor
    · intro hx
      refine ⟨hx, ?_⟩
      by_contra hlt
      exact hm ((mem_chain0_setSplit_right hwf k x).mpr ⟨hx, le_of_not_lt hlt⟩)
    · exact fun hx => hx.1

theorem hmInv_split_right {st : HMS K V} (hinv : HMInv st) (k : K) :
    HMInv (hmSplit k st).2 := by
  obtain ⟨hwf, hiff⟩ := hinv
  refine ⟨setWF_setSplit_right hwf k, fun x => ?_⟩
  show (if x ∈ chain0 (setSplit k st.keys).2 then st.values x else none).isSome
    ↔ x ∈ chain0 (setSplit k st.keys).2
  by_cases hm : x ∈ chain0 (setSplit k st.keys).2
  · rw [if_pos hm, hiff x]
    have := (mem_chain0_setSplit_right hwf k x).mp hm
    simp [this.1, hm]
  · rw [if_neg hm]
    simp [hm]

theorem hmReach_inv {st : HMS K V} (hr : HMReach st) : HMInv st := by
  induction hr with
  | new b => exact hmInv_empty b
  | put st h k v h1 h2 _ ih => exact hmInv_put ih h k v h1
  | cut st k _ ih => exact hmInv_cut ih k
  | splitL st k _ ih => exact hmInv_split_left ih k
  | splitR st k _ ih => exact hmInv_split_right ih k

end HashMapLemmas

section HashMapClaims

variable {K V : Type} [LinearOrder K]

/-- C9: on a consistent map with k absent, Put(k, a) returns true; a
second Put(k, b) returns false and overwrites, so Get(k) then yields b;
the length grew by one with the first Put and is unchanged by the second
(1 when the map started empty). -/
theorem claim9_put_overwrite (st : HMS K V) (k : K) (a b : V) (h1 h2 : Nat)
    (hinv : HMInv st) (habs : st.values k = none) :
    (hmPut h1 k a st).1 = true ∧
    (hmPut h2 k b (hmPut h1 k a st).2).1 = false ∧
    hmGet k (hmPut h2 k b (hmPut h1 k a st).2).2 = some b ∧
    (hmPut h1 k a st).2.keys.length = st.keys.length + 1 ∧
    (hmPut h2 k b (hmPut h1 k a st).2).2.keys.length = (hmPut h1 k a st).2.keys.length := by
  obtain ⟨hwf, hiff⟩ := hinv
  have hk0 : k ∉ chain0 st.keys := fun hm => by
    have := (hiff k).mpr hm
    rw [habs] at this
    exact absurd this (by simp)
  have hg : ¬findGE k (chain0 st.keys) = some k := fun hx => hk0 (findGE_mem hx)
  have hks : ¬(st.values k).isSome = true := by simp [habs]
  have hput1 : hmPut h1 k a st
      = (true, { values := fun x => if x = k then some a else st.values x,
                 keys := (setAdd h1 k st.keys).2 }) := by
    rw [hmPut, if_neg hks]
  have hsome : ((hmPut h1 k a st).2.values k).isSome = true := by
    rw [hput1]
    simp
  have hput2 : hmPut h2 k b (hmPut h1 k a st).2
      = (false, { (hmPut h1 k a st).2 with
          values := fun x => if x = k then some b else (hmPut h1 k a st).2.values x }) := by
    rw [hmPut, if_pos hsome]
  refine ⟨by rw [hput1], by rw [hput2], ?_, ?_, ?_⟩
  · rw [hput2]
    show (if k = k then some b else (hmPut h1 k a st).2.values k) = some b
    rw [if_pos rfl]
  · rw [hput1]
    show (setAdd h1 k st.keys).2.length = st.keys.length + 1
    rw [setAdd, if_neg hg]
  · rw [hput2]

/-- C9 witness at a concrete input. -/
theorem claim9_put_overwrite_witness :
    (hmPut 1 (5 : Int) (1 : Int) hmInt0).1 = true ∧
    (hmPut 1 (5 : Int) (2 : Int) (hmPut 1 5 1 hmInt0).2).1 = false ∧
    hmGet (5 : Int) (hmPut 1 (5 : Int) (2 : Int) (hmPut 1 5 1 hmInt0).2).2 = some 2 ∧
    (hmPut 1 (5 : Int) (1 : Int) hmInt0).2.keys.length = hmInt0.keys.length + 1 ∧
    (hmPut 1 (5 : Int) (2 : Int) (hmPut 1 5 1 hmInt0).2).2.keys.length
      = (hmPut 1 (5 : Int) (1 : Int) hmInt0).2.keys.length :=
  claim9_put_overwrite hmInt0 5 1 2 1 1 (hmInv_empty false) rfl

/-- C10: after any sequence of Put, Cut and Split from a fresh HashMap,
the dictionary holds a key exactly when the key Set holds it, Get reports
existence exactly for keys on the Keys() level-0 traversal, and the
stored length equals the number of stored pairs. -/
theorem claim10_dual_storage (st : HMS K V) (hr : HMReach st) :
    (∀ x, (st.values x).isSome ↔ x ∈ chain0 st.keys) ∧
    (∀ x, (hmGet x st).isSome ↔ x ∈ setValues st.keys) ∧
    st.keys.length = ((chain0 st.keys).length : Int) := by
  have hinv := hmReach_inv hr
  exact ⟨hinv.2, hinv.2, hinv.1.2.2.2⟩

/-- C10 witness at a concrete input. -/
theorem claim10_dual_storage_witness :
    (∀ x, (hmInt0.values x).isSome ↔ x ∈ chain0 hmInt0.keys) ∧
    (∀ x, (hmGet x hmInt0).isSome ↔ x ∈ setValues hmInt0.keys) ∧
    hmInt0.keys.length = ((chain0 hmInt0.keys).length : Int) :=
  claim10_dual_storage hmInt0 (HMReach.new false)

end HashMapClaims

section GF2Lemmas

theorem partitionOkB_nil_iff {arcs : Nat → Option Arc} {w lo : Nat} :
    partitionOkB arcs w lo [] = true ↔ lo = 2 ^ w := by
  simp [partitionOkB]

theorem partitionOkB_cons_iff {arcs : Nat → Option Arc} {w lo k : Nat} {ks : List Nat} :
    partitionOkB arcs w lo (k :: ks) = true ↔
      ∃ a, arcs k = some a ∧ a.lo = lo ∧ a.hi = k ∧ k + 1 = lo + 2 ^ a.rank ∧
        partitionOkB arcs w (k + 1) ks = true := by
  cases harc : arcs k with
  | none => simp [partitionOkB, harc]
  | some a =>
    simp only [partitionOkB, harc, Bool.and_eq_true, beq_iff_eq, Option.some_inj]
    constructor
    · intro hh
      exact ⟨a, rfl, hh.1.1.1, hh.1.1.2, hh.1.2, hh.2⟩
    · intro hh
      obtain ⟨a2, he, h1, h2, h3, h4⟩ := hh
      subst he
      exact ⟨⟨⟨h1, h2⟩, h3⟩, h4⟩

theorem partitionOkB_lo_le {arcs : Nat → Option Arc} {w : Nat} :
    ∀ {ks : List Nat} {lo : Nat}, partitionOkB arcs w lo ks = true → ∀ x ∈ ks, lo ≤ x := by
  intro ks
  induction ks with
  | nil => intro lo _ x hx; cases hx
  | cons c cs ih =>
    intro lo hp x hx
    obtain ⟨a, _, _, _, hsum, hrest⟩ := partitionOkB_cons_iff.mp hp
    have h1 : 1 ≤ 2 ^ a.rank := Nat.one_le_two_pow
    rcases List.mem_cons.mp hx with rfl | hx
    · omega
    · have := ih hrest x hx
      omega

theorem partitionOkB_le {arcs : Nat → Option Arc} {w : Nat} :
    ∀ {ks : List Nat} {lo : Nat}, partitionOkB arcs w lo ks = true → lo ≤ 2 ^ w := by
  intro ks
  induction ks with
  | nil => intro lo hp; exact le_of_eq (partitionOkB_nil_iff.mp hp)
  | cons c cs ih =>
    intro lo hp
    obtain ⟨a, _, _, _, hsum, hrest⟩ := partitionOkB_cons_iff.mp hp
    have h1 : 1 ≤ 2 ^ a.rank := Nat.one_le_two_pow
    have := ih hrest
    omega

theorem partitionOkB_top_mem {arcs : Nat → Option Arc} {w : Nat} :
    ∀ {ks : List Nat} {lo : Nat}, partitionOkB arcs w lo ks = true → lo < 2 ^ w →
      (2 ^ w - 1) ∈ ks := by
  intro ks
  induction ks with
  | nil =>
    intro lo hp hlt
    have := partitionOkB_nil_iff.mp hp
    omega
  | cons c cs ih =>
    intro lo hp hlt
    obtain ⟨a, _, _, _, hsum, hrest⟩ := partitionOkB_cons_iff.mp hp
    by_cases hcs : c + 1 < 2 ^ w
    · exact List.mem_cons_of_mem _ (ih hrest hcs)
    · have hle : c + 1 ≤ 2 ^ w := partitionOkB_le hrest
      have : c = 2 ^ w - 1 := by omega
      rw [← this]
      exact List.mem_cons_self c cs

theorem partitionOkB_cover {arcs : Nat → Option Arc} {w k : Nat} :
    ∀ {ks : List Nat} {lo : Nat}, partitionOkB arcs w lo ks = true →
      lo ≤ k → ∀ {hi : Nat}, findGE k ks = some hi →
      ∃ a, arcs hi = some a ∧ a.hi = hi ∧ lo ≤ a.lo ∧ a.lo ≤ k ∧ k ≤ hi ∧
        hi + 1 = a.lo + 2 ^ a.rank ∧ ∀ x ∈ ks, x < a.lo ∨ hi ≤ x := by
  intro ks
  induction ks with
  | nil =>
    intro lo _ _ hi hf
    exact absurd hf (by simp [findGE])
  | cons c cs ih =>
    intro lo hp hlok hi hf
    obtain ⟨a0, harc0, hlo0, hhi0, hsum0, hrest⟩ := partitionOkB_cons_iff.mp hp
    by_cases hck : c < k
    · have hguard : (!decide (c < k)) = false := by simp [hck]
      rw [findGE, List.find?_cons, hguard] at hf
      have hlok2 : c + 1 ≤ k := hck
      obtain ⟨a, ha, hahi, hloa, halo, hkhi, hsum, hside⟩ := ih hrest hlok2 hf
      have h1 : 1 ≤ 2 ^ a0.rank := Nat.one_le_two_pow
      refine ⟨a, ha, hahi, by omega, halo, hkhi, hsum, ?_⟩
      intro x hx
      rcases List.mem_cons.mp hx with rfl | hx
      · left; omega
      · exact hside x hx
    · have hguard : (!decide (c < k)) = true := by simp [hck]
      rw [findGE, List.find?_cons, hguard] at hf
      obtain rfl : c = hi := by injection hf
      refine ⟨a0, harc0, hhi0, le_of_eq hlo0.symm, hlo0 ▸ hlok, le_of_not_lt hck, by omega, ?_⟩
      intro x hx
      rcases List.mem_cons.mp hx with rfl | hx
      · right; exact le_refl _
      · right
        have := partitionOkB_lo_le hrest x hx
        omega

theorem partitionOkB_congr {w : Nat} {arcs1 arcs2 : Nat → Option Arc} :
    ∀ {ks : List Nat} {lo : Nat}, (∀ x ∈ ks, arcs1 x = arcs2 x) →
      partitionOkB arcs1 w lo ks = partitionOkB arcs2 w lo ks := by
  intro ks
  induction ks with
  | nil => intro lo _; rfl
  | cons c cs ih =>
    intro lo hagree
    have hc := hagree c (List.mem_cons_self c cs)
    simp only [partitionOkB, hc]
    cases arcs2 c with
    | none => rfl
    | some a => rw [ih (fun x hx => hagree x (List.mem_cons_of_mem c hx))]

theorem partitionOkB_insert {arcs : Nat → Option Arc} {w k hi mid r : Nat} {a : Arc}
    (hahi : a.hi = hi) (hmid1 : mid + 1 = a.lo + 2 ^ r)
    (hhisum : hi + 1 = a.lo + 2 ^ (r + 1)) :
    ∀ {ks : List Nat} {lo : Nat}, partitionOkB arcs w lo ks = true →
      findGE k ks = some hi → arcs hi = some a →
      (∀ x ∈ ks, x < a.lo ∨ hi ≤ x) →
      partitionOkB
        (fun x => if x = hi then some ⟨r, mid + 1, a.hi⟩
          else if x = mid then some ⟨r, a.lo, mid⟩ else arcs x) w lo
        (insertChain mid ks) = true := by
  have hpow : 2 ^ (r + 1) = 2 ^ r + 2 ^ r := by rw [pow_succ]; omega
  have h1r : 1 ≤ 2 ^ r := Nat.one_le_two_pow
  have hmidlo : a.lo ≤ mid := by omega
  have hmidhi : mid < hi := by omega
  intro ks
  induction ks with
  | nil =>
    intro lo _ hf
    exact absurd hf (by simp [findGE])
  | cons c cs ih =>
    intro lo hp hf ha hside
    obtain ⟨a0, harc0, hlo0, hhi0, hsum0, hrest⟩ := partitionOkB_cons_iff.mp hp
    have hkhi : k ≤ hi := findGE_ge hf
    by_cases hck : c < k
    · have hguard : (!decide (c < k)) = false := by simp [hck]
      have hf2 : findGE k cs = some hi := by
        rw [findGE, List.find?_cons, hguard] at hf
        exact hf
      have hclo : c < a.lo := by
        rcases hside c (List.mem_cons_self c cs) with hl | hr
        · exact hl
        · omega
      have hcmid : c < mid := lt_of_lt_of_le hclo hmidlo
      rw [insertChain, if_pos hcmid]
      apply partitionOkB_cons_iff.mpr
      refine ⟨a0, ?_, hlo0, hhi0, hsum0, ?_⟩
      · show (if c = hi then some (Arc.mk r (mid + 1) a.hi)
          else if c = mid then some (Arc.mk r a.lo mid) else arcs c) = some a0
        rw [if_neg (by omega), if_neg (by omega)]
        exact harc0
      · exact ih hrest hf2 ha (fun x hx => hside x (List.mem_cons_of_mem c hx))
    · have hguard : (!decide (c < k)) = true := by simp [hck]
      rw [findGE, List.find?_cons, hguard] at hf
      have hch : c = hi := by injection hf
      rw [hch] at harc0 hhi0 hsum0 hrest
      have haa : a0 = a := by
        rw [harc0] at ha
        exact Option.some_inj.mp ha
      rw [haa] at harc0 hlo0 hhi0 hsum0
      rw [hch, insertChain, if_neg (by omega)]
      apply partitionOkB_cons_iff.mpr
      refine ⟨⟨r, a.lo, mid⟩, ?_, ?_, rfl, ?_, ?_⟩
      · show (if mid = hi then some (Arc.mk r (mid + 1) a.hi)
          else if mid = mid then some (Arc.mk r a.lo mid) else arcs mid) = some (Arc.mk r a.lo mid)
        rw [if_neg (by omega), if_pos rfl]
      · exact hlo0
      · show mid + 1 = lo + 2 ^ r
        omega
      · apply partitionOkB_cons_iff.mpr
        refine ⟨⟨r, mid + 1, a.hi⟩, ?_, rfl, hahi, ?_, ?_⟩
        · show (if hi = hi then some (Arc.mk r (mid + 1) a.hi)
            else if hi = mid then some (Arc.mk r a.lo mid) else arcs hi) = some (Arc.mk r (mid + 1) a.hi)
          rw [if_pos rfl]
        · show hi + 1 = (mid + 1) + 2 ^ r
          omega
        · have hcongr : ∀ x ∈ cs,
              (fun x => if x = hi then some (Arc.mk r (mid + 1) a.hi)
                else if x = mid then some (Arc.mk r a.lo mid) else arcs x) x = arcs x := by
            intro x hx
            have := partitionOkB_lo_le hrest x hx
            show (if x = hi then some (Arc.mk r (mid + 1) a.hi)
              else if x = mid then some (Arc.mk r a.lo mid) else arcs x) = arcs x
            rw [if_neg (by omega), if_neg (by omega)]
          rw [partitionOkB_congr hcongr]
          exact hrest

theorem gf2Inv_new (w h : Nat) (h1 : 1 ≤ h) : GF2Inv w (newGF2 w h) := by
  have hwfe : SetWF (emptySet false : SetS Nat) := setWF_empty false
  have hg : ¬findGE (2 ^ w - 1) (chain0 (emptySet false : SetS Nat)) = some (2 ^ w - 1) := by
    rw [show chain0 (emptySet false : SetS Nat) = [] from rfl]
    simp [findGE]
  constructor
  · exact setWF_setAdd hwfe h (2 ^ w - 1) h1
  · show partitionOkB (newGF2 w h).arcs w 0 (chain0 (setAdd h (2 ^ w - 1) (emptySet false)).2) = true
    rw [chain0_setAdd hwfe h1 hg]
    rw [show chain0 (emptySet false : SetS Nat) = [] from rfl]
    rw [show insertChain (2 ^ w - 1) ([] : List Nat) = [2 ^ w - 1] from rfl]
    apply partitionOkB_cons_iff.mpr
    have h1w : 1 ≤ 2 ^ w := Nat.one_le_two_pow
    refine ⟨⟨w, 0, 2 ^ w - 1⟩, ?_, rfl, rfl, ?_, ?_⟩
    · show (if 2 ^ w - 1 = 2 ^ w - 1 then some (Arc.mk w 0 (2 ^ w - 1)) else none)
        = some (Arc.mk w 0 (2 ^ w - 1))
      rw [if_pos rfl]
    · show 2 ^ w - 1 + 1 = 0 + 2 ^ w
      omega
    · apply partitionOkB_nil_iff.mpr
      omega

theorem gf2_successor_exists {w k : Nat} {f : GF2S} (hinv : GF2Inv w f) (hk : k < 2 ^ w) :
    ∃ hi, setSuccessor k f.keys = some hi := by
  obtain ⟨hwf, hpart⟩ := hinv
  have h2w : 1 ≤ 2 ^ w := Nat.one_le_two_pow
  have htop : (2 ^ w - 1) ∈ chain0 f.keys := partitionOkB_top_mem hpart (by omega)
  cases hcase : findGE k (chain0 f.keys) with
  | none =>
    have hall := findGE_eq_none.mp hcase
    have := hall _ htop
    omega
  | some v => exact ⟨v, hcase⟩

end GF2Lemmas

section GF2Claims

/-- C7 counterexample: on a fresh 8 bit field the very first Add(0x39)
splits the covering arc [0x00, 0xff] at 0x7f and returns the tail arc
[0x80, 0xff]; the claimed bound tail.lo ≤ k fails, since 0x80 > 0x39 (the
key lands in the returned head arc, not the tail). -/
theorem claim7_counterexample :
    (gf2Add 1 57 (newGF2 8 1)).map (fun t => t.2.1) = some ⟨7, 128, 255⟩ ∧
    ¬((128 : Nat) ≤ 57) := ⟨rfl, by decide⟩

/-- C7 (amended): for every field satisfying the coverage invariant and
every w-bit key, Add returns a pair (head, tail) with head.lo ≤ k ≤
tail.hi; when the covering arc is split (positive rank) the halves abut,
head.hi + 1 = tail.lo, and when its rank is zero the covering arc is
returned twice (head = tail); the coverage invariant is preserved. -/
theorem claim7_gf2_add (w h k : Nat) (f : GF2S) (hinv : GF2Inv w f)
    (hk : k < 2 ^ w) (h1 : 1 ≤ h) :
    ∃ headArc tailArc f2, gf2Add h k f = some (headArc, tailArc, f2) ∧
      headArc.lo ≤ k ∧ k ≤ tailArc.hi ∧
      (headArc = tailArc ∨ headArc.hi + 1 = tailArc.lo) ∧
      GF2Inv w f2 := by
  obtain ⟨hi, hsucc⟩ := gf2_successor_exists hinv hk
  obtain ⟨hwf, hpart⟩ := hinv
  have hfind : findGE k (chain0 f.keys) = some hi := hsucc
  obtain ⟨a, ha, hahi, hlo0a, halo, hkhi, hsum, hside⟩ :=
    partitionOkB_cover hpart (Nat.zero_le k) hfind
  cases harank : a.rank with
  | zero =>
    refine ⟨a, a, f, ?_, halo, by show k ≤ a.hi; rw [hahi]; exact hkhi, Or.inl rfl, hwf, hpart⟩
    simp only [gf2Add, hsucc, ha, Option.getD_some]
    rw [if_pos harank]
  | succ r =>
    have hpow : 2 ^ (r + 1) = 2 ^ r + 2 ^ r := by rw [pow_succ]; omega
    have h1r : 1 ≤ 2 ^ r := Nat.one_le_two_pow
    have hsum2 : hi + 1 = a.lo + 2 ^ (r + 1) := by rw [← harank]; exact hsum
    have hmid1 : a.lo + (hi - a.lo) / 2 + 1 = a.lo + 2 ^ r := by omega
    have hmidmem : a.lo + (hi - a.lo) / 2 ∉ chain0 f.keys := by
      intro hm
      rcases hside _ hm with hx | hx <;> omega
    have hgm : ¬findGE (a.lo + (hi - a.lo) / 2) (chain0 f.keys)
        = some (a.lo + (hi - a.lo) / 2) := fun hx => hmidmem (findGE_mem hx)
    refine ⟨⟨r, a.lo, a.lo + (hi - a.lo) / 2⟩, ⟨r, a.lo + (hi - a.lo) / 2 + 1, a.hi⟩,
      { keys := (setAdd h (a.lo + (hi - a.lo) / 2) f.keys).2,
        arcs := fun x => if x = hi then some ⟨r, a.lo + (hi - a.lo) / 2 + 1, a.hi⟩
          else if x = a.lo + (hi - a.lo) / 2 then some ⟨r, a.lo, a.lo + (hi - a.lo) / 2⟩
          else f.arcs x },
      ?_, halo, by show k ≤ a.hi; rw [hahi]; exact hkhi, Or.inr rfl, ?_, ?_⟩
    · simp only [gf2Add, hsucc, ha, Option.getD_some]
      rw [if_neg (by omega)]
      simp [harank]
    · exact setWF_setAdd hwf h _ h1
    · show partitionOkB _ w 0 (chain0 (setAdd h (a.lo + (hi - a.lo) / 2) f.keys).2) = true
      rw [chain0_setAdd hwf h1 hgm]
      exact partitionOkB_insert hahi hmid1 hsum2 hpart hfind ha hside

/-- C7 amended witness at a concrete input. -/
theorem claim7_gf2_add_witness :
    ∃ headArc tailArc f2, gf2Add 1 57 (newGF2 8 1) = some (headArc, tailArc, f2) ∧
      headArc.lo ≤ 57 ∧ 57 ≤ tailArc.hi ∧
      (headArc = tailArc ∨ headArc.hi + 1 = tailArc.lo) ∧
      GF2Inv 8 f2 :=
  claim7_gf2_add 8 1 57 (newGF2 8 1) (gf2Inv_new 8 1 (by decide)) (by decide) (by decide)

/-- C8: Get and Add halt with the non-continuous-field panic (modelled by
the result none) exactly when the engine successor lookup returns null,
and under the coverage invariant (which keeps the top key present) a
w-bit key always has a successor, so neither operation panics on an
untampered field. -/
theorem claim8_gf2_panic (w h k : Nat) (f : GF2S) (hinv : GF2Inv w f) (hk : k < 2 ^ w) :
    (∀ (g : GF2S) (k2 h2 : Nat),
      (gf2Add h2 k2 g = none ↔ setSuccessor k2 g.keys = none) ∧
      (gf2Get k2 g = none ↔ setSuccessor k2 g.keys = none)) ∧
    (gf2Add h k f).isSome = true ∧ (gf2Get k f).isSome = true := by
  have hiff : ∀ (g : GF2S) (k2 h2 : Nat),
      (gf2Add h2 k2 g = none ↔ setSuccessor k2 g.keys = none) ∧
      (gf2Get k2 g = none ↔ setSuccessor k2 g.keys = none) := by
    intro g k2 h2
    cases hs : setSuccessor k2 g.keys with
    | none => simp [gf2Add, gf2Get, hs]
    | some hi =>
      constructor
      · simp only [gf2Add, hs]
        constructor
        · intro hcon
          revert hcon
          split <;> simp
        · intro hcon
          simp at hcon
      · simp [gf2Get, hs]
  obtain ⟨hi, hsucc⟩ := gf2_successor_exists hinv hk
  refine ⟨hiff, ?_, ?_⟩
  · simp only [gf2Add, hsucc]
    split <;> rfl
  · simp [gf2Get, hsucc]

/-- C8 witness at a concrete input. -/
theorem claim8_gf2_panic_witness :
    (∀ (g : GF2S) (k2 h2 : Nat),
      (gf2Add h2 k2 g = none ↔ setSuccessor k2 g.keys = none) ∧
      (gf2Get k2 g = none ↔ setSuccessor k2 g.keys = none)) ∧
    (gf2Add 1 57 (newGF2 8 1)).isSome = true ∧ (gf2Get 57 (newGF2 8 1)).isSome = true :=
  claim8_gf2_panic 8 1 57 (newGF2 8 1) (gf2Inv_new 8 1 (by decide)) (by decide)

end GF2Claims

section PairwiseChainLemmas

variable {A : Type} {R : A → A → Prop}

theorem pairwise_takeWhile_eq_filter (p : A → Bool)
    (hp : ∀ x y : A, R x y → p y = true → p x = true) :
    ∀ {c : List A}, List.Pairwise R c → c.takeWhile p = c.filter p := by
  intro c
  induction c with
  | nil => intro _; rfl
  | cons a cs ih =>
    intro hs
    rw [List.pairwise_cons] at hs
    obtain ⟨ha, hcs⟩ := hs
    cases hpa : p a with
    | true => simp [List.takeWhile_cons, List.filter_cons, hpa, ih hcs]
    | false =>
      have hnil : List.filter p cs = [] := by
        rw [List.filter_eq_nil_iff]
        intro b hb hpb
        exact absurd (hp a b (ha b hb) hpb) (by simp [hpa])
      simp [List.takeWhile_cons, List.filter_cons, hpa, hnil]

theorem pairwise_dropWhile_eq_filter (p : A → Bool)
    (hp : ∀ x y : A, R x y → p y = true → p x = true) :
    ∀ {c : List A}, List.Pairwise R c → c.dropWhile p = c.filter (fun x => !p x) := by
  intro c
  induction c with
  | nil => intro _; rfl
  | cons a cs ih =>
    intro hs
    rw [List.pairwise_cons] at hs
    obtain ⟨ha, hcs⟩ := hs
    cases hpa : p a with
    | true => simp [List.dropWhile_cons, List.filter_cons, hpa, ih hcs]
    | false =>
      have hself : List.filter (fun x => !p x) cs = cs := by
        rw [List.filter_eq_self]
        intro b hb
        cases hpb : p b with
        | true => exact absurd (hp a b (ha b hb) hpb) (by simp [hpa])
        | false => simp [hpb]
      simp [List.dropWhile_cons, List.filter_cons, hpa, hself]

theorem pairwise_take_drop_eq_filter (pa pt : A → Bool)
    (hpa : ∀ x y : A, R x y → pa y = true → pa x = true)
    (hpt : ∀ x y : A, R x y → pt y = true → pt x = true)
    (hdisj : ∀ x : A, pa x = true → pt x = true) :
    ∀ {c : List A}, List.Pairwise R c →
      c.takeWhile pa ++ c.dropWhile pt = c.filter (fun x => pa x || !pt x) := by
  intro c
  induction c with
  | nil => intro _; rfl
  | cons a cs ih =>
    intro hs
    rw [List.pairwise_cons] at hs
    obtain ⟨ha, hcs⟩ := hs
    cases hpaa : pa a with
    | true =>
      have hpta : pt a = true := hdisj a hpaa
      simp [List.takeWhile_cons, List.dropWhile_cons, List.filter_cons, hpaa, hpta, ih hcs]
    | false =>
      have hfa : ∀ b ∈ cs, pa b = false := by
        intro b hb
        cases hpb : pa b with
        | true => exact absurd (hpa a b (ha b hb) hpb) (by simp [hpaa])
        | false => rfl
      cases hpta : pt a with
      | true =>
        have h2 : List.dropWhile pt cs = List.filter (fun x => !pt x) cs :=
          pairwise_dropWhile_eq_filter pt hpt hcs
        have h3 : List.filter (fun x => pa x || !pt x) cs = List.filter (fun x => !pt x) cs := by
          apply List.filter_congr
          intro b hb
          simp [hfa b hb]
        simp [List.takeWhile_cons, List.dropWhile_cons, List.filter_cons, hpaa, hpta, h2, h3]
      | false =>
        have h3 : List.filter (fun x => pa x || !pt x) cs = cs := by
          rw [List.filter_eq_self]
          intro b hb
          have hptb : pt b = false := by
            cases hpb : pt b with
            | true => exact absurd (hpt a b (ha b hb) hpb) (by simp [hpta])
            | false => rfl
          simp [hfa b hb, hptb]
        simp [List.takeWhile_cons, List.dropWhile_cons, List.filter_cons, hpaa, hpta, h3]

theorem pairwise_drop_take_eq_filter (pa pt : A → Bool)
    (hpa : ∀ x y : A, R x y → pa y = true → pa x = true)
    (hpt : ∀ x y : A, R x y → pt y = true → pt x = true) :
    ∀ {c : List A}, List.Pairwise R c →
      (c.dropWhile pa).takeWhile pt = c.filter (fun x => !pa x && pt x) := by
  intro c
  induction c with
  | nil => intro _; rfl
  | cons a cs ih =>
    intro hs
    rw [List.pairwise_cons] at hs
    obtain ⟨ha, hcs⟩ := hs
    cases hpaa : pa a with
    | true =>
      simp only [List.dropWhile_cons, hpaa, if_true, List.filter_cons]
      rw [ih hcs]
      simp
    | false =>
      have hfa : ∀ b ∈ cs, pa b = false := by
        intro b hb
        cases hpb : pa b with
        | true => exact absurd (hpa a b (ha b hb) hpb) (by simp [hpaa])
        | false => rfl
      cases hpta : pt a with
      | true =>
        have h2 : List.takeWhile pt cs = List.filter pt cs :=
          pairwise_takeWhile_eq_filter pt hpt hcs
        have h3 : List.filter (fun x => !pa x && pt x) cs = List.filter pt cs := by
          apply List.filter_congr
          intro b hb
          simp [hfa b hb]
        simp [List.dropWhile_cons, List.takeWhile_cons, List.filter_cons, hpaa, hpta, h2, h3]
      | false =>
        have h3 : List.filter (fun x => !pa x && pt x) cs = [] := by
          rw [List.filter_eq_nil_iff]
          intro b hb hpb
          have hptb : pt b = true := by
            simpa [hfa b hb] using hpb
          exact absurd (hpt a b (ha b hb) hptb) (by simp [hpta])
        simp [List.dropWhile_cons, List.takeWhile_cons, List.filter_cons, hpaa, hpta, h3]

theorem takeWhile_true_eq : ∀ (c : List A), c.takeWhile (fun _ => true) = c := by
  intro c
  induction c with
  | nil => rfl
  | cons a cs ih => simp [List.takeWhile_cons, ih]

theorem length_filter_compl (p q : A → Bool) (hpq : ∀ x, q x = !p x) :
    ∀ c : List A, (c.filter p).length + (c.filter q).length = c.length := by
  intro c
  induction c with
  | nil => rfl
  | cons a cs ih =>
    simp only [List.filter_cons, hpq a]
    cases hpa : p a <;> simp [List.length_cons] <;> omega

end PairwiseChainLemmas

section MapLLemmas

variable {K : Type} [LinearOrder K]

theorem getD_insertLevels {k : K} :
    ∀ (m : Nat) (cs : List (List K)) (i : Nat),
      (insertLevels k m cs).getD i []
        = if i < m ∧ i < cs.length then insertChain k (cs.getD i []) else cs.getD i [] := by
  intro m
  induction m with
  | zero =>
    intro cs i
    rw [if_neg (by omega)]
    cases cs <;> rfl
  | succ m1 ih =>
    intro cs i
    cases cs with
    | nil =>
      rw [if_neg (by simp)]
      rfl
    | cons c rest =>
      cases i with
      | zero =>
        rw [if_pos (by simp only [List.length_cons]; omega)]
        rfl
      | succ j =>
        show (insertLevels k m1 rest).getD j [] = _
        rw [ih rest j]
        by_cases hj : j < m1 ∧ j < rest.length
        · rw [if_pos hj, if_pos (by simp only [List.length_cons]; omega)]
          rfl
        · rw [if_neg hj, if_neg (by simp only [List.length_cons]; omega)]
          rfl

theorem length_mapLevel {A : Type} (f : Nat → A → A) :
    ∀ (j : Nat) (cs : List A), (mapLevel f j cs).length = cs.length := by
  intro j cs
  induction cs generalizing j with
  | nil => rfl
  | cons c rest ih => simp [mapLevel, ih]

theorem getD_mapLevel {A : Type} (f : Nat → List A → List A) :
    ∀ (cs : List (List A)) (j i : Nat),
      (mapLevel f j cs).getD i []
        = if i < cs.length then f (j + i) (cs.getD i []) else [] := by
  intro cs
  induction cs with
  | nil =>
    intro j i
    rw [if_neg (by simp)]
    rfl
  | cons c rest ih =>
    intro j i
    cases i with
    | zero =>
      rw [if_pos (by simp)]
      rfl
    | succ i1 =>
      show (mapLevel f (j + 1) rest).getD i1 [] = _
      rw [ih (j + 1) i1]
      by_cases hi : i1 < rest.length
      · rw [if_pos hi, if_pos (by simp only [List.length_cons]; omega)]
        have harith : j + 1 + i1 = j + (i1 + 1) := by omega
        rw [harith]
        rfl
      · rw [if_neg hi, if_neg (by simp only [List.length_cons]; omega)]

theorem map_fst_filter {A B : Type} (q : A → Bool) :
    ∀ (ns : List (A × B)),
      ((ns.filter (fun p => q p.1)).map Prod.fst) = (ns.map Prod.fst).filter q := by
  intro ns
  induction ns with
  | nil => rfl
  | cons p ps ih =>
    simp only [List.filter_cons, List.map_cons]
    cases hq : q p.1 with
    | true => simp [hq, ih]
    | false => simp [hq, ih]

theorem mkeys_insertNode {k : K} {h : Nat} :
    ∀ (ns : List (K × Nat)), (insertNode k h ns).map Prod.fst = insertChain k (ns.map Prod.fst) := by
  intro ns
  induction ns with
  | nil => rfl
  | cons p ps ih =>
    by_cases hp : p.1 < k
    · rw [insertNode, if_pos hp, List.map_cons, ih, List.map_cons, insertChain, if_pos hp]
    · rw [insertNode, if_neg hp, List.map_cons, List.map_cons, insertChain, if_neg hp]

theorem length_insertNode {k : K} {h : Nat} :
    ∀ (ns : List (K × Nat)), (insertNode k h ns).length = ns.length + 1 := by
  intro ns
  induction ns with
  | nil => rfl
  | cons p ps ih =>
    by_cases hp : p.1 < k <;> simp [insertNode, hp, ih]

theorem mem_insertNode {k : K} {h : Nat} {q : K × Nat} :
    ∀ {ns : List (K × Nat)}, q ∈ insertNode k h ns ↔ q = (k, h) ∨ q ∈ ns := by
  intro ns
  induction ns with
  | nil => simp [insertNode]
  | cons p ps ih =>
    by_cases hp : p.1 < k
    · simp only [insertNode, if_pos hp, List.mem_cons, ih]
      tauto
    · simp only [insertNode, if_neg hp, List.mem_cons]

theorem filter_insertNode {k : K} {h : Nat} (P : Nat → Bool) :
    ∀ {ns : List (K × Nat)}, List.Pairwise (fun p q : K × Nat => p.1 < q.1) ns →
      ((insertNode k h ns).filter (fun q => P q.2)).map Prod.fst
        = if P h = true then insertChain k ((ns.filter (fun q => P q.2)).map Prod.fst)
          else (ns.filter (fun q => P q.2)).map Prod.fst := by
  intro ns
  induction ns with
  | nil =>
    intro _
    cases hP : P h with
    | true => simp [insertNode, List.filter_cons, hP, insertChain]
    | false => simp [insertNode, List.filter_cons, hP]
  | cons p ps ih =>
    intro hs
    rw [List.pairwise_cons] at hs
    obtain ⟨hp1, hps⟩ := hs
    by_cases hpk : p.1 < k
    · rw [insertNode, if_pos hpk]
      cases hPp : P p.2 with
      | true =>
        simp only [List.filter_cons, hPp, if_true, List.map_cons, ih hps]
        cases hP : P h with
        | true =>
          simp
          rw [insertChain, if_pos hpk]
        | false => simp
      | false =>
        simp only [List.filter_cons, hPp, Bool.false_eq_true, if_false]
        exact ih hps
    · rw [insertNode, if_neg hpk]
      cases hP : P h with
      | true =>
        have hall : ∀ x ∈ ((p :: ps).filter (fun q => P q.2)).map Prod.fst, ¬x < k := by
          intro x hx
          rw [List.mem_map] at hx
          obtain ⟨q, hq, rfl⟩ := hx
          have hq2 := List.mem_of_mem_filter hq
          rcases List.mem_cons.mp hq2 with rfl | hq3
          · exact hpk
          · have hlt := hp1 q hq3
            intro hc
            exact hpk (lt_trans hlt hc)
        have hins : insertChain k (((p :: ps).filter (fun q => P q.2)).map Prod.fst)
            = k :: ((p :: ps).filter (fun q => P q.2)).map Prod.fst := by
          cases hfc : ((p :: ps).filter (fun q => P q.2)).map Prod.fst with
          | nil => rfl
          | cons x xs =>
            rw [insertChain, if_neg (hall x (by rw [hfc]; exact List.mem_cons_self x xs))]
        rw [if_pos rfl, hins, List.filter_cons, if_pos hP]
        rfl
      | false =>
        rw [if_neg (by simp), List.filter_cons, if_neg (by simp [hP])]

theorem heightOf_eq {k0 : K} {h0 : Nat} :
    ∀ {ns : List (K × Nat)}, List.Pairwise (fun p q : K × Nat => p.1 < q.1) ns →
      (k0, h0) ∈ ns → heightOf k0 ns = h0 := by
  intro ns
  induction ns with
  | nil => intro _ hm; cases hm
  | cons p ps ih =>
    intro hs hm
    rw [List.pairwise_cons] at hs
    obtain ⟨hp1, hps⟩ := hs
    rcases List.mem_cons.mp hm with he | hm2
    · rw [← he]
      simp [heightOf, List.find?_cons]
    · have hlt : p.1 < k0 := hp1 (k0, h0) hm2
      have hne : ¬p.1 = k0 := ne_of_lt hlt
      have hih := ih hps hm2
      simp only [heightOf, List.find?_cons] at hih ⊢
      rw [show (decide (p.1 = k0)) = false by simp [hne]]
      exact hih

theorem mem_mkeys {x : K} {s : MapS K} : x ∈ mkeys s ↔ ∃ hx, (x, hx) ∈ s.nodes := by
  rw [mkeys, List.mem_map]
  constructor
  · intro hm
    obtain ⟨q, hq, rfl⟩ := hm
    exact ⟨q.2, hq⟩
  · intro hm
    obtain ⟨hx, hq⟩ := hm
    exact ⟨(x, hx), hq, rfl⟩

theorem head?_sorted_le {c : List K} (hs : List.Sorted (· < ·) c) {t : K}
    (hh : c.head? = some t) : ∀ x ∈ c, t ≤ x := by
  cases c with
  | nil => cases hh
  | cons a cs =>
    obtain rfl : a = t := by injection hh
    rw [List.sorted_cons] at hs
    intro x hx
    rcases List.mem_cons.mp hx with rfl | hx
    · exact le_refl x
    · exact le_of_lt (hs.1 x hx)

theorem nextAfter_eq_none_iff {k : K} {c : List K} :
    nextAfter k c = none ↔ ∀ x ∈ c, ¬k < x := by
  rw [nextAfter, List.head?_eq_none_iff, List.dropWhile_eq_nil_iff]
  simp

theorem nextAfter_some {k : K} {c : List K} (hs : List.Sorted (· < ·) c) {t : K}
    (hn : nextAfter k c = some t) : k < t ∧ t ∈ c ∧ ∀ x ∈ c, k < x → t ≤ x := by
  have hfil : c.dropWhile (fun x => !decide (k < x)) = c.filter (fun x => !(!decide (k < x))) := by
    apply pairwise_dropWhile_eq_filter (R := (· < ·)) _ _ hs
    intro x y hxy hy
    simp only [Bool.not_eq_true', decide_eq_false_iff_not, not_lt] at hy ⊢
    exact le_trans (le_of_lt hxy) hy
  rw [nextAfter, hfil] at hn
  have hsf : List.Sorted (· < ·) (c.filter (fun x => !(!decide (k < x)))) :=
    List.Pairwise.filter _ hs
  have htm : t ∈ c.filter (fun x => !(!decide (k < x))) := by
    cases hfc : c.filter (fun x => !(!decide (k < x))) with
    | nil => rw [hfc] at hn; cases hn
    | cons y ys =>
      rw [hfc] at hn
      have hyt : y = t := by
        have hh : (y :: ys).head? = some y := rfl
        rw [hh] at hn
        exact Option.some_inj.mp hn
      rw [← hyt]
      exact List.mem_cons_self y ys
  have hkt : k < t := by
    have hpt := List.of_mem_filter htm
    simpa using hpt
  refine ⟨hkt, List.mem_of_mem_filter htm, ?_⟩
  intro x hx hkx
  have hxf : x ∈ c.filter (fun x => !(!decide (k < x))) := by
    rw [List.mem_filter]
    exact ⟨hx, by simpa using hkx⟩
  exact head?_sorted_le hsf hn x hxf

theorem minv_nodes_pairwise {s : MapS K} (hinv : MInv s) :
    List.Pairwise (fun p q : K × Nat => p.1 < q.1) s.nodes :=
  (List.pairwise_map).mp hinv.1

theorem minv_chain_sorted {s : MapS K} (hinv : MInv s) {i : Nat} (hi : i < L - 1) :
    List.Sorted (· < ·) (s.hichains.getD i []) := by
  rw [hinv.2.2.2 i hi]
  exact (List.pairwise_map).mpr (List.Pairwise.filter _ (minv_nodes_pairwise hinv))

theorem minv_chainL_sorted {s : MapS K} (hinv : MInv s) (i : Nat) :
    List.Sorted (· < ·) (chainL s i) := by
  rw [chainL]
  by_cases hi0 : i = 0
  · rw [if_pos hi0]
    exact hinv.1
  · rw [if_neg hi0]
    by_cases hlt : i - 1 < L - 1
    · exact minv_chain_sorted hinv hlt
    · rw [List.getD_eq_default]
      · exact List.sorted_nil
      · rw [hinv.2.2.1]
        omega

theorem minv_empty : MInv (emptyMap : MapS K) := by
  refine ⟨List.sorted_nil, rfl, by simp [emptyMap], ?_⟩
  intro i hi
  simp [emptyMap]

theorem minv_surgery {s : MapS K} (hinv : MInv s) (keepB : K → Bool) (H : Nat)
    (htall : ∀ p ∈ s.nodes, ∀ i : Nat, i < L - 1 → ¬(i + 1 < H) → i + 1 < p.2 →
      keepB p.1 = true) :
    MInv { nodes := s.nodes.filter (fun p => keepB p.1),
           hichains := mapLevel (fun i c => if i + 1 < H then c.filter keepB else c) 0 s.hichains,
           length := s.length - (((mkeys s).filter (fun x => !keepB x)).length : Int) } := by
  obtain ⟨hsort, hlen, hclen, hder⟩ := hinv
  refine ⟨?_, ?_, ?_, ?_⟩
  · show List.Sorted (· < ·) ((s.nodes.filter (fun p => keepB p.1)).map Prod.fst)
    rw [map_fst_filter]
    exact List.Pairwise.filter _ hsort
  · show s.length - (((mkeys s).filter (fun x => !keepB x)).length : Int)
      = ((s.nodes.filter (fun p => keepB p.1)).length : Int)
    have h1 : ((mkeys s).filter (fun x => !keepB x)).length
        = (s.nodes.filter (fun p => !keepB p.1)).length := by
      rw [mkeys, ← map_fst_filter (fun x => !keepB x) s.nodes, List.length_map]
    have h2 : (s.nodes.filter (fun p => keepB p.1)).length
        + (s.nodes.filter (fun p => !keepB p.1)).length = s.nodes.length :=
      length_filter_compl _ _ (fun _ => rfl) s.nodes
    rw [hlen, h1]
    omega
  · show (mapLevel (fun i c => if i + 1 < H then c.filter keepB else c) 0 s.hichains).length
      = L - 1
    rw [length_mapLevel]
    exact hclen
  · intro i hi
    show (mapLevel (fun i c => if i + 1 < H then c.filter keepB else c) 0 s.hichains).getD i []
      = ((s.nodes.filter (fun p => keepB p.1)).filter (fun p => decide (i + 1 < p.2))).map Prod.fst
    rw [getD_mapLevel, if_pos (by rw [hclen]; exact hi)]
    simp only [Nat.zero_add]
    by_cases hiH : i + 1 < H
    · rw [if_pos hiH, hder i hi, ← map_fst_filter keepB]
      congr 1
      rw [List.filter_filter, List.filter_filter]
      apply List.filter_congr
      intro b _
      rw [Bool.and_comm]
    · rw [if_neg hiH, hder i hi]
      congr 1
      rw [List.filter_filter]
      apply List.filter_congr
      intro p hp
      cases hPi : decide (i + 1 < p.2) with
      | true =>
        have hkp : keepB p.1 = true :=
          htall p hp i hi hiH (by simpa using hPi)
        simp [hkp]
      | false => simp

theorem minv_put {s : MapS K} (hinv : MInv s) {h : Nat} (h1 : 1 ≤ h) (k : K) :
    MInv (mlPut h k s).2 := by
  by_cases hg : findGE k (mkeys s) = some k
  · rw [mlPut, if_pos hg]
    exact hinv
  · have hk0 : k ∉ mkeys s := fun hm => hg (findGE_of_mem hinv.1 hm)
    have hpw := minv_nodes_pairwise hinv
    rw [mlPut, if_neg hg]
    obtain ⟨hsort, hlen, hclen, hder⟩ := hinv
    have hne : ¬h = 0 := by omega
    refine ⟨?_, ?_, ?_, ?_⟩
    · show List.Sorted (· < ·) ((if h = 0 then s.nodes else insertNode k h s.nodes).map Prod.fst)
      rw [if_neg hne, mkeys_insertNode]
      exact sorted_insertChain hsort hk0
    · show s.length + 1 = (((if h = 0 then s.nodes else insertNode k h s.nodes)).length : Int)
      rw [if_neg hne, length_insertNode, hlen]
      push_cast
      omega
    · show (insertLevels k (h - 1) s.hichains).length = L - 1
      rw [length_insertLevels]
      exact hclen
    · intro i hi
      show (insertLevels k (h - 1) s.hichains).getD i []
        = ((if h = 0 then s.nodes else insertNode k h s.nodes).filter
            (fun p => decide (i + 1 < p.2))).map Prod.fst
      rw [if_neg hne, getD_insertLevels, filter_insertNode (fun n => decide (i + 1 < n)) hpw]
      by_cases hih : i < h - 1
      · rw [if_pos ⟨hih, by rw [hclen]; exact hi⟩,
          if_pos (by simp only [decide_eq_true_eq]; omega), hder i hi]
      · rw [if_neg (fun hc => hih hc.1),
          if_neg (by simp only [decide_eq_true_eq]; omega), hder i hi]

theorem mapLevel_congr_mem {A : Type} {f g : Nat → A → A} :
    ∀ (j : Nat) (cs : List A), (∀ c ∈ cs, ∀ i, f i c = g i c) →
      mapLevel f j cs = mapLevel g j cs := by
  intro j cs
  induction cs generalizing j with
  | nil => intro _; rfl
  | cons c rest ih =>
    intro hcg
    rw [mapLevel, mapLevel, hcg c (List.mem_cons_self c rest) j,
      ih (j + 1) (fun c1 hc1 => hcg c1 (List.mem_cons_of_mem c hc1))]

theorem minv_hichains_mem_sorted {s : MapS K} (hinv : MInv s) :
    ∀ c ∈ s.hichains, List.Sorted (· < ·) c := by
  intro c hc
  obtain ⟨i, hi, heq⟩ := List.getElem_of_mem hc
  have hgd : s.hichains.getD i [] = c := by
    rw [List.getD_eq_getElem s.hichains [] hi]
    exact heq
  rw [← hgd]
  apply minv_chain_sorted hinv
  rw [hinv.2.2.1] at hi
  exact hi

end MapLLemmas

section MapLClaims

variable {K : Type} [LinearOrder K]

/-- C6 (amended): for every map state satisfying invariants I1 to I5,
every level ceiling N in [1, L] and every key, the rank drawn by the
level oracle is at most N, and LevelAdd with such a rank h in [1, N]
creates a node of height h (at most N) when the key is fresh and
preserves I1 to I5; LevelCut at level N preserves I1 to I5 when started
from a stored node that either is the first node of the list or has
height greater than N. LevelAdd with ceiling 0 is excluded: it draws rank
0 and increments the length without linking any node, breaking I4 (see
the counterexample). -/
theorem claim6_level_ops (s : MapS K) (hinv : MInv s) (N h : Nat) (k : K)
    (hh1 : 1 ≤ h) (hhN : h ≤ N) (hNL : N ≤ L) :
    (∀ (p : ℚ) (pt : List ℚ), levelUp p pt N ≤ N) ∧
    ((mlPut h k s).1 = true → (k, h) ∈ (mlPut h k s).2.nodes) ∧
    MInv (mlPut h k s).2 ∧
    (∀ nk, nk ∈ mkeys s →
      ((mkeys s).head? = some nk ∨ N < heightOf nk s.nodes) →
      MInv (mlCut N nk s).2) := by
  refine ⟨fun p pt => levelUp_le p pt N, ?_, minv_put hinv hh1 k, ?_⟩
  · intro hput
    by_cases hg : findGE k (mkeys s) = some k
    · rw [mlPut, if_pos hg] at hput
      cases hput
    · rw [mlPut, if_neg hg] at hput ⊢
      show (k, h) ∈ (if h = 0 then s.nodes else insertNode k h s.nodes)
      rw [if_neg (by omega)]
      exact mem_insertNode.mpr (Or.inl rfl)
  · intro nk hmem hcase
    by_cases hnoop : mlSegStart nk s = mlTo N nk s
    · rw [mlCut, if_pos hnoop]
      exact hinv
    · rw [mlCut, if_neg hnoop]
      by_cases hfirst : (mkeys s).head? = some nk
      · -- cutting from the head sentinel
        have hlo : mlLo nk s = none := by rw [mlLo, if_pos hfirst]
        have hH : mlFromH nk s = L := by rw [mlFromH, if_pos hfirst]
        cases hto : mlTo N nk s with
        | none =>
          have hnodes : nodesCutSeg (mlLo nk s) (mlTo N nk s) s.nodes
              = s.nodes.filter (fun p => (fun _ : K => false) p.1) := by
            rw [hlo, hto]
            show ([] : List (K × Nat)) = s.nodes.filter (fun _ => false)
            simp
          have hchains : mapLevel
              (fun i c => if i + 1 < mlFromH nk s then cutSeg (mlLo nk s) (mlTo N nk s) c else c)
              0 s.hichains
              = mapLevel (fun i c => if i + 1 < L then c.filter (fun _ : K => false) else c)
                0 s.hichains := by
            apply mapLevel_congr_mem
            intro c _ i
            rw [hlo, hto, hH]
            by_cases hiL : i + 1 < L
            · rw [if_pos hiL, if_pos hiL]
              show ([] : List K) = c.filter (fun _ => false)
              simp
            · rw [if_neg hiL, if_neg hiL]
          have hseg : (segBetween (mlLo nk s) (mlTo N nk s) (mkeys s)).length
              = ((mkeys s).filter (fun x => !(fun _ : K => false) x)).length := by
            rw [hlo, hto]
            show ((mkeys s).takeWhile (fun _ => true)).length = _
            rw [takeWhile_true_eq]
            have hfe : (mkeys s).filter (fun x => !(fun _ : K => false) x) = mkeys s := by
              rw [List.filter_eq_self]
              intro b _
              rfl
            rw [hfe]
          rw [hto] at hnodes hchains hseg
          show MInv ⟨nodesCutSeg (mlLo nk s) none s.nodes,
            mapLevel (fun i c => if i + 1 < mlFromH nk s
              then cutSeg (mlLo nk s) none c else c) 0 s.hichains,
            s.length - ((segBetween (mlLo nk s) none (mkeys s)).length : Int)⟩
          rw [hnodes, hchains, hseg]
          exact minv_surgery hinv (fun _ => false) L
            (fun p hp i hi hiH hip => absurd (show i + 1 < L by
              have h22 : L = 22 := rfl
              omega) hiH)
        | some t =>
          have hnodes : nodesCutSeg (mlLo nk s) (mlTo N nk s) s.nodes
              = s.nodes.filter (fun p => (fun x : K => !decide (x < t)) p.1) := by
            rw [hlo, hto]
            show s.nodes.dropWhile (fun p => decide (p.1 < t)) = _
            apply pairwise_dropWhile_eq_filter (R := fun p q : K × Nat => p.1 < q.1)
            · intro x y hxy hy
              simp only [decide_eq_true_eq] at hy ⊢
              exact lt_trans hxy hy
            · exact minv_nodes_pairwise hinv
          have hchains : mapLevel
              (fun i c => if i + 1 < mlFromH nk s then cutSeg (mlLo nk s) (mlTo N nk s) c else c)
              0 s.hichains
              = mapLevel (fun i c => if i + 1 < L then c.filter (fun x : K => !decide (x < t)) else c)
                0 s.hichains := by
            apply mapLevel_congr_mem
            intro c hc i
            rw [hlo, hto, hH]
            by_cases hiL : i + 1 < L
            · rw [if_pos hiL, if_pos hiL]
              show c.dropWhile (fun x => decide (x < t)) = _
              exact sorted_dropWhile_eq_filter _ (lt_antitone_decide t)
                (minv_hichains_mem_sorted hinv c hc)
            · rw [if_neg hiL, if_neg hiL]
          have hseg : (segBetween (mlLo nk s) (mlTo N nk s) (mkeys s)).length
              = ((mkeys s).filter (fun x => !(fun x : K => !decide (x < t)) x)).length := by
            rw [hlo, hto]
            show ((mkeys s).takeWhile (fun x => decide (x < t))).length = _
            rw [sorted_takeWhile_eq_filter _ (lt_antitone_decide t) hinv.1]
            congr 1
            apply List.filter_congr
            intro b _
            simp
          rw [hto] at hnodes hchains hseg
          show MInv ⟨nodesCutSeg (mlLo nk s) (some t) s.nodes,
            mapLevel (fun i c => if i + 1 < mlFromH nk s
              then cutSeg (mlLo nk s) (some t) c else c) 0 s.hichains,
            s.length - ((segBetween (mlLo nk s) (some t) (mkeys s)).length : Int)⟩
          rw [hnodes, hchains, hseg]
          exact minv_surgery hinv (fun x => !decide (x < t)) L
            (fun p hp i hi hiH hip => absurd (show i + 1 < L by
              have h22 : L = 22 := rfl
              omega) hiH)
      · -- cutting from a stored node taller than N
        have htall : N < heightOf nk s.nodes := by
          rcases hcase with hc | hc
          · exact absurd hc hfirst
          · exact hc
        have hlo : mlLo nk s = some nk := by rw [mlLo, if_neg hfirst]
        have hH : mlFromH nk s = heightOf nk s.nodes := by rw [mlFromH, if_neg hfirst]
        have htoEq : mlTo N nk s = nextAfter nk (chainL s N) := by
          rw [mlTo, hH, if_pos htall, if_neg hfirst]
        have hN1 : 1 ≤ N := by
          by_contra h0
          have hN0 : N = 0 := by omega
          apply hnoop
          rw [mlSegStart, if_neg hfirst, htoEq, hN0]
          rfl
        -- membership of tall nodes on the level-N chain
        have hmemN : ∀ p : K × Nat, p ∈ s.nodes → N < p.2 → N - 1 < L - 1 →
            p.1 ∈ chainL s N := by
          intro p hp hpN hNL2
          rw [chainL, if_neg (by omega), hinv.2.2.2 (N - 1) hNL2, List.mem_map]
          refine ⟨p, List.mem_filter.mpr ⟨hp, ?_⟩, rfl⟩
          simp only [decide_eq_true_eq]
          omega
        cases hto : mlTo N nk s with
        | none =>
          have hnone : ∀ x ∈ chainL s N, ¬nk < x := by
            rw [htoEq] at hto
            exact nextAfter_eq_none_iff.mp hto
          have htallP : ∀ p ∈ s.nodes, ∀ i : Nat, i < L - 1 →
              ¬(i + 1 < heightOf nk s.nodes) → i + 1 < p.2 →
              (fun x : K => decide (x ≤ nk)) p.1 = true := by
            intro p hp i hi hiH hip
            have hpN : N < p.2 := by omega
            have hNL2 : N - 1 < L - 1 := by omega
            have hmN := hmemN p hp hpN hNL2
            have := hnone p.1 hmN
            simp only [decide_eq_true_eq]
            exact le_of_not_lt this
          have hnodes : nodesCutSeg (mlLo nk s) (mlTo N nk s) s.nodes
              = s.nodes.filter (fun p => (fun x : K => decide (x ≤ nk)) p.1) := by
            rw [hlo, hto]
            show s.nodes.takeWhile (fun p => decide (p.1 ≤ nk)) ++ [] = _
            rw [List.append_nil]
            apply pairwise_takeWhile_eq_filter (R := fun p q : K × Nat => p.1 < q.1)
            · intro x y hxy hy
              simp only [decide_eq_true_eq] at hy ⊢
              exact le_trans (le_of_lt hxy) hy
            · exact minv_nodes_pairwise hinv
          have hchains : mapLevel
              (fun i c => if i + 1 < mlFromH nk s then cutSeg (mlLo nk s) (mlTo N nk s) c else c)
              0 s.hichains
              = mapLevel (fun i c => if i + 1 < heightOf nk s.nodes
                  then c.filter (fun x : K => decide (x ≤ nk)) else c) 0 s.hichains := by
            apply mapLevel_congr_mem
            intro c hc i
            rw [hlo, hto, hH]
            by_cases hiH : i + 1 < heightOf nk s.nodes
            · rw [if_pos hiH, if_pos hiH]
              show c.takeWhile (fun x => decide (x ≤ nk)) ++ [] = _
              rw [List.append_nil]
              apply pairwise_takeWhile_eq_filter (R := (· < ·))
              · intro x y hxy hy
                simp only [decide_eq_true_eq] at hy ⊢
                exact le_trans (le_of_lt hxy) hy
              · exact minv_hichains_mem_sorted hinv c hc
            · rw [if_neg hiH, if_neg hiH]
          have hseg : (segBetween (mlLo nk s) (mlTo N nk s) (mkeys s)).length
              = ((mkeys s).filter (fun x => !(fun x : K => decide (x ≤ nk)) x)).length := by
            rw [hlo, hto]
            show (((mkeys s).dropWhile (fun x => decide (x ≤ nk))).takeWhile
              (fun _ => true)).length = _
            rw [takeWhile_true_eq]
            rw [pairwise_dropWhile_eq_filter (R := (· < ·)) _ ?_ hinv.1]
            · intro x y hxy hy
              simp only [decide_eq_true_eq] at hy ⊢
              exact le_trans (le_of_lt hxy) hy
          rw [hto] at hnodes hchains hseg
          show MInv ⟨nodesCutSeg (mlLo nk s) none s.nodes,
            mapLevel (fun i c => if i + 1 < mlFromH nk s
              then cutSeg (mlLo nk s) none c else c) 0 s.hichains,
            s.length - ((segBetween (mlLo nk s) none (mkeys s)).length : Int)⟩
          rw [hnodes, hchains, hseg]
          exact minv_surgery hinv (fun x => decide (x ≤ nk)) (heightOf nk s.nodes) htallP
        | some t =>
          have hnext : nextAfter nk (chainL s N) = some t := by
            rw [← htoEq]
            exact hto
          obtain ⟨hnkt, htmem, htleast⟩ := nextAfter_some (minv_chainL_sorted hinv N) hnext
          have htallP : ∀ p ∈ s.nodes, ∀ i : Nat, i < L - 1 →
              ¬(i + 1 < heightOf nk s.nodes) → i + 1 < p.2 →
              (fun x : K => decide (x ≤ nk) || !decide (x < t)) p.1 = true := by
            intro p hp i hi hiH hip
            have hpN : N < p.2 := by omega
            have hNL2 : N - 1 < L - 1 := by omega
            have hmN := hmemN p hp hpN hNL2
            by_cases hple : p.1 ≤ nk
            · simp [hple]
            · have hlt : nk < p.1 := lt_of_not_le hple
              have hge := htleast p.1 hmN hlt
              simp only [Bool.or_eq_true, decide_eq_true_eq, Bool.not_eq_true',
                decide_eq_false_iff_not, not_lt]
              exact Or.inr hge
          have hnodes : nodesCutSeg (mlLo nk s) (mlTo N nk s) s.nodes
              = s.nodes.filter (fun p =>
                  (fun x : K => decide (x ≤ nk) || !decide (x < t)) p.1) := by
            rw [hlo, hto]
            show s.nodes.takeWhile (fun p => decide (p.1 ≤ nk))
              ++ s.nodes.dropWhile (fun p => decide (p.1 < t)) = _
            apply pairwise_take_drop_eq_filter (R := fun p q : K × Nat => p.1 < q.1)
            · intro x y hxy hy
              simp only [decide_eq_true_eq] at hy ⊢
              exact le_trans (le_of_lt hxy) hy
            · intro x y hxy hy
              simp only [decide_eq_true_eq] at hy ⊢
              exact lt_trans hxy hy
            · intro x hx
              simp only [decide_eq_true_eq] at hx ⊢
              exact lt_of_le_of_lt hx hnkt
            · exact minv_nodes_pairwise hinv
          have hchains : mapLevel
              (fun i c => if i + 1 < mlFromH nk s then cutSeg (mlLo nk s) (mlTo N nk s) c else c)
              0 s.hichains
              = mapLevel (fun i c => if i + 1 < heightOf nk s.nodes
                  then c.filter (fun x : K => decide (x ≤ nk) || !decide (x < t)) else c)
                0 s.hichains := by
            apply mapLevel_congr_mem
            intro c hc i
            rw [hlo, hto, hH]
            by_cases hiH : i + 1 < heightOf nk s.nodes
            · rw [if_pos hiH, if_pos hiH]
              show c.takeWhile (fun x => decide (x ≤ nk))
                ++ c.dropWhile (fun x => decide (x < t)) = _
              apply pairwise_take_drop_eq_filter (R := (· < ·))
              · intro x y hxy hy
                simp only [decide_eq_true_eq] at hy ⊢
                exact le_trans (le_of_lt hxy) hy
              · intro x y hxy hy
                simp only [decide_eq_true_eq] at hy ⊢
                exact lt_trans hxy hy
              · intro x hx
                simp only [decide_eq_true_eq] at hx ⊢
                exact lt_of_le_of_lt hx hnkt
              · exact minv_hichains_mem_sorted hinv c hc
            · rw [if_neg hiH, if_neg hiH]
          have hseg : (segBetween (mlLo nk s) (mlTo N nk s) (mkeys s)).length
              = ((mkeys s).filter (fun x =>
                  !(fun x : K => decide (x ≤ nk) || !decide (x < t)) x)).length := by
            rw [hlo, hto]
            show (((mkeys s).dropWhile (fun x => decide (x ≤ nk))).takeWhile
              (fun x => decide (x < t))).length = _
            rw [pairwise_drop_take_eq_filter (R := (· < ·)) _ _ ?_ ?_ hinv.1]
            · congr 1
              apply List.filter_congr
              intro b _
              simp
            · intro x y hxy hy
              simp only [decide_eq_true_eq] at hy ⊢
              exact le_trans (le_of_lt hxy) hy
            · intro x y hxy hy
              simp only [decide_eq_true_eq] at hy ⊢
              exact lt_trans hxy hy
          rw [hto] at hnodes hchains hseg
          show MInv ⟨nodesCutSeg (mlLo nk s) (some t) s.nodes,
            mapLevel (fun i c => if i + 1 < mlFromH nk s
              then cutSeg (mlLo nk s) (some t) c else c) 0 s.hichains,
            s.length - ((segBetween (mlLo nk s) (some t) (mkeys s)).length : Int)⟩
          rw [hnodes, hchains, hseg]
          exact minv_surgery hinv (fun x => decide (x ≤ nk) || !decide (x < t))
            (heightOf nk s.nodes) htallP

/-- C6 counterexample to the claim as stated: the level range is claimed
to start at N = 0, but with ceiling 0 the level oracle draws rank 0 and
MapL.Put then increments the stored length without linking any node, so
the very first insert into a well-formed empty map breaks invariant I4
(stored length = count of level-0 nodes). -/
theorem claim6_counterexample :
    MInv (emptyMap : MapS Int) ∧
    levelUp 0 [1] 0 = 0 ∧
    (mlPut (levelUp 0 [1] 0) (5 : Int) (emptyMap : MapS Int)).1 = true ∧
    ¬ MInv (mlPut (levelUp 0 [1] 0) (5 : Int) (emptyMap : MapS Int)).2 := by
  refine ⟨minv_empty, rfl, rfl, fun h => ?_⟩
  have h41 := h.2.1
  rw [show levelUp 0 [1] 0 = 0 from rfl] at h41
  simp [mlPut, emptyMap, mkeys, findGE] at h41

/-- Witness: the amended level-operation theorem applied at a concrete
one-node map (key 5 at height 2), ceiling N = 2, fresh key 7 at rank 1. -/
theorem claim6_level_ops_witness :
    MInv mInt1 ∧
    ((∀ (p : ℚ) (pt : List ℚ), levelUp p pt 2 ≤ 2) ∧
     ((mlPut 1 (7 : Int) mInt1).1 = true →
       ((7 : Int), 1) ∈ (mlPut 1 (7 : Int) mInt1).2.nodes) ∧
     MInv (mlPut 1 (7 : Int) mInt1).2 ∧
     (∀ nk, nk ∈ mkeys mInt1 →
       ((mkeys mInt1).head? = some nk ∨ 2 < heightOf nk mInt1.nodes) →
       MInv (mlCut 2 nk mInt1).2)) :=
  ⟨minv_put minv_empty (by decide) 5,
   claim6_level_ops mInt1 (minv_put minv_empty (by decide) 5) 2 1 7
     (by decide) (by decide) (by decide)⟩

end MapLClaims

end Skiplist
